import Mathlib

/-!
Verification of the core storage engine (chunked tensor store).

Part 1: embedding of hub/core/meta/encode/chunk_name.py.

Chunk names are numpy uint64 chunk ids rendered through Python hex(id)[2:]
and parsed back with int("0x" + name, 16).  The ChunkNameEncoder keeps two
parallel arrays: encoded[i] = (chunk_id, last_sample_index) and
connectivity[i], and resolves a sample index to the chunk names holding it
with a numpy searchsorted (binary search) followed by a connectivity walk.
-/

/-- Lowercase character of a single hexadecimal digit, as Python renders hex digits
(0-9 then a-f). -/
def hexDigitChar (d : Nat) : Char :=
  if d < 10 then Char.ofNat (48 + d) else Char.ofNat (87 + d)

/-- Digit portion of Python hex(n): lowercase hexadecimal digits of n, most significant
first, no leading zeros (hex(0) renders as the single digit 0). -/
def hexRender (n : Nat) : List Char :=
  if _h : n < 16 then [hexDigitChar n]
  else hexRender (n / 16) ++ [hexDigitChar (n % 16)]
termination_by n
decreasing_by exact Nat.div_lt_self (by omega) (by omega)

/-- Embeds _chunk_name_from_id: hex(id)[2:], the hex digits with the 0x prefix stripped. -/
def chunk_name_from_id (id : Nat) : List Char := hexRender id

/-- Numeric value of one (lowercase) hexadecimal digit character, as int(.., 16) reads it. -/
def hexCharVal (c : Char) : Nat := if 97 ≤ c.toNat then c.toNat - 87 else c.toNat - 48

/-- Embeds _chunk_id_from_name: int("0x" + name, 16). -/
def chunk_id_from_name (name : List Char) : Nat :=
  name.foldl (fun acc c => 16 * acc + hexCharVal c) 0

/-- The sixteen characters Python uses for lowercase hexadecimal. -/
def lowercaseHexChars : List Char :=
  [Char.ofNat 48, Char.ofNat 49, Char.ofNat 50, Char.ofNat 51, Char.ofNat 52,
   Char.ofNat 53, Char.ofNat 54, Char.ofNat 55, Char.ofNat 56, Char.ofNat 57,
   Char.ofNat 97, Char.ofNat 98, Char.ofNat 99, Char.ofNat 100, Char.ofNat 101,
   Char.ofNat 102]

lemma hexCharVal_hexDigitChar (d : Nat) (hd : d < 16) :
    hexCharVal (hexDigitChar d) = d := by
  interval_cases d <;> decide

lemma hexDigitChar_mem (d : Nat) (hd : d < 16) :
    hexDigitChar d ∈ lowercaseHexChars := by
  interval_cases d <;> decide

lemma chunk_id_from_name_append (a : List Char) (c : Char) :
    chunk_id_from_name (a ++ [c]) = 16 * chunk_id_from_name a + hexCharVal c := by
  simp [chunk_id_from_name, List.foldl_append]

lemma chunk_id_hexRender (n : Nat) : chunk_id_from_name (hexRender n) = n := by
  induction n using Nat.strong_induction_on with
  | _ n ih =>
    rw [hexRender]
    by_cases h : n < 16
    · simp only [h, dif_pos]
      simp [chunk_id_from_name, hexCharVal_hexDigitChar n h]
    · simp only [h, dif_neg, not_false_iff]
      rw [chunk_id_from_name_append,
        ih (n / 16) (Nat.div_lt_self (by omega) (by omega)),
        hexCharVal_hexDigitChar (n % 16) (Nat.mod_lt _ (by omega))]
      omega

lemma hexRender_mem (n : Nat) : ∀ c ∈ hexRender n, c ∈ lowercaseHexChars := by
  induction n using Nat.strong_induction_on with
  | _ n ih =>
    rw [hexRender]
    by_cases h : n < 16
    · simp only [h, dif_pos]
      intro c hc
      rw [List.mem_singleton] at hc
      exact hc ▸ hexDigitChar_mem n h
    · simp only [h, dif_neg, not_false_iff]
      intro c hc
      rcases List.mem_append.mp hc with h1 | h2
      · exact ih (n / 16) (Nat.div_lt_self (by omega) (by omega)) c h1
      · rw [List.mem_singleton] at h2
        exact h2 ▸ hexDigitChar_mem (n % 16) (Nat.mod_lt _ (by omega))

/-- Claim C9: for every 64-bit unsigned chunk id, the rendered chunk name consists only
of lowercase hexadecimal digit characters (no 0x marker: hex(id)[2:] strips it) and
parsing the rendered name returns the original id. -/
theorem C9_chunk_name_roundtrip (id : Nat) (h64 : id < 2 ^ 64) :
    chunk_id_from_name (chunk_name_from_id id) = id ∧
      ∀ c ∈ chunk_name_from_id id, c ∈ lowercaseHexChars := by
  exact ⟨chunk_id_hexRender id, hexRender_mem id⟩

/-- Witness for C9 at the concrete id 3735928559 (0xdeadbeef). -/
theorem C9_chunk_name_roundtrip_witness :
    chunk_id_from_name (chunk_name_from_id 3735928559) = 3735928559 ∧
      ∀ c ∈ chunk_name_from_id 3735928559, c ∈ lowercaseHexChars :=
  C9_chunk_name_roundtrip 3735928559 (by norm_num)

/-- State of a ChunkNameEncoder: the two parallel arrays.  The numpy None state is the
empty list; encoded rows are (chunk_id, last_sample_index) pairs. -/
structure ChunkNameEncoder where
  encoded : List (Nat × Nat)
  connectivity : List Bool
deriving DecidableEq, Repr

/-- Embeds the num_chunks property. -/
def ChunkNameEncoder.num_chunks (e : ChunkNameEncoder) : Nat := e.encoded.length

/-- Embeds the num_samples property: encoded[-1, LAST_INDEX] + 1, or 0 when empty. -/
def ChunkNameEncoder.num_samples (e : ChunkNameEncoder) : Nat :=
  match e.encoded.getLast? with
  | none => 0
  | some entry => entry.2 + 1

/-- 2^64: the modulus of CHUNK_NAME_ENCODING_DTYPE = np.uint64, the dtype of the
encoded array. -/
def uint64Mod : Nat := 18446744073709551616

/-- Embeds extend_chunk: requires num_samples > 0 to extend, a previous chunk, and that
the previous chunk is not already connected to next; bumps the final last_sample_index
in place and overwrites the final connectivity flag.  The in-place add
`last_entry[LAST_INDEX_INDEX] += num_samples` lands in the np.uint64 array, so it wraps
modulo 2^64 silently. -/
def ChunkNameEncoder.extend_chunk (e : ChunkNameEncoder) (numSamples : Nat)
    (connectedToNext : Bool) : Except String ChunkNameEncoder :=
  if numSamples = 0 then
    .error "When extending, num_samples should be > 0."
  else if e.num_samples = 0 then
    .error "Cannot extend the previous chunk because it does not exist."
  else if e.connectivity.getLastD false = true then
    .error "Cannot extend a chunk that is already marked as connected_to_next."
  else
    .ok
      { encoded :=
          e.encoded.dropLast ++
            [((e.encoded.getLastD (0, 0)).1,
              ((e.encoded.getLastD (0, 0)).2 + numSamples) % uint64Mod)]
        connectivity := e.connectivity.dropLast ++ [connectedToNext] }

/-- Embeds append_chunk.  The fresh uuid-derived chunk id is passed in as `id` (it is an
arbitrary uint64 in the source).  A first chunk must carry at least one sample; later
chunks may carry zero samples only if the previous chunk was connected to next.  The new
row (id, previous_last_index + numSamples) is built in exact Python integers and then
handed to np.array(..., dtype=np.uint64), which raises OverflowError when a value does
not fit in 64 bits, so the success path requires both values below 2^64. -/
def ChunkNameEncoder.append_chunk (e : ChunkNameEncoder) (id : Nat) (numSamples : Nat)
    (connectedToNext : Bool) : Except String ChunkNameEncoder :=
  if e.num_samples = 0 then
    if numSamples = 0 then .error "First num samples cannot be 0."
    else if id < uint64Mod ∧ numSamples - 1 < uint64Mod then
      .ok { encoded := [(id, numSamples - 1)], connectivity := [connectedToNext] }
    else .error "OverflowError: Python int too large to convert to numpy uint64"
  else
    if numSamples = 0 ∧ e.connectivity.getLastD false = false then
      .error "num_samples cannot be 0 unless the previous chunk was connected to next."
    else if id < uint64Mod ∧ (e.num_samples - 1) + numSamples < uint64Mod then
      .ok
        { encoded := e.encoded ++ [(id, (e.num_samples - 1) + numSamples)]
          connectivity := e.connectivity ++ [connectedToNext] }
    else .error "OverflowError: Python int too large to convert to numpy uint64"

/-- One encoder mutation: an append_chunk (with its fresh chunk id) or an extend_chunk. -/
inductive EncoderOp where
  | append (id : Nat) (numSamples : Nat) (connectedToNext : Bool)
  | extend (numSamples : Nat) (connectedToNext : Bool)
deriving DecidableEq, Repr

/-- Applies one encoder operation. -/
def applyEncoderOp (e : ChunkNameEncoder) : EncoderOp → Except String ChunkNameEncoder
  | .append id n c => e.append_chunk id n c
  | .extend n c => e.extend_chunk n c

/-- Runs a sequence of encoder operations, stopping at the first failure. -/
def runEncoderOps (ops : List EncoderOp) (e : ChunkNameEncoder) :
    Except String ChunkNameEncoder :=
  match ops with
  | [] => .ok e
  | op :: rest =>
    match applyEncoderOp e op with
    | .error s => .error s
    | .ok e2 => runEncoderOps rest e2

/-- The C8 invariant: last_sample_index is non-decreasing along encoded, and num_samples
is final last_sample_index + 1 (0 when the encoder is empty). -/
def EncoderInv (e : ChunkNameEncoder) : Prop :=
  List.Sorted (· ≤ ·) (e.encoded.map Prod.snd) ∧
    e.num_samples =
      (match e.encoded.getLast? with
       | none => 0
       | some entry => entry.2 + 1)

instance (e : ChunkNameEncoder) : Decidable (EncoderInv e) := by
  unfold EncoderInv List.Sorted
  infer_instance

lemma sorted_le_getLastD {l : List Nat} (hs : List.Sorted (· ≤ ·) l) :
    ∀ x ∈ l, x ≤ l.getLastD 0 := by
  induction l with
  | nil => intro x hx; cases hx
  | cons a t ih =>
    intro x hx
    rcases List.mem_cons.mp hx with rfl | hxt
    · cases t with
      | nil => simp
      | cons b u =>
        have hab : x ≤ b := (List.sorted_cons.mp hs).1 b (by simp)
        have hb : b ≤ (b :: u).getLastD 0 := ih (List.sorted_cons.mp hs).2 b (by simp)
        simpa using le_trans hab hb
    · cases t with
      | nil => cases hxt
      | cons b u =>
        have := ih (List.sorted_cons.mp hs).2 x hxt
        simpa using this

lemma sorted_append_singleton {l : List Nat} {x : Nat} (hs : List.Sorted (· ≤ ·) l)
    (hx : ∀ y ∈ l, y ≤ x) : List.Sorted (· ≤ ·) (l ++ [x]) := by
  rw [List.Sorted, List.pairwise_append]
  exact ⟨hs, List.pairwise_singleton _ _,
    fun y hy z hz => (List.mem_singleton.mp hz) ▸ hx y hy⟩

lemma map_snd_getLastD (l : List (Nat × Nat)) (hl : l ≠ []) :
    (l.map Prod.snd).getLastD 0 = (l.getLastD (0, 0)).2 := by
  induction l with
  | nil => cases hl rfl
  | cons a t ih =>
    cases t with
    | nil => simp
    | cons b u => simpa using ih (by simp)

lemma num_samples_eq_getLastD (e : ChunkNameEncoder) (he : e.encoded ≠ []) :
    e.num_samples = (e.encoded.getLastD (0, 0)).2 + 1 := by
  unfold ChunkNameEncoder.num_samples
  rw [List.getLastD_eq_getLast?]
  cases h : e.encoded.getLast? with
  | none => exact absurd (List.getLast?_eq_none_iff.mp h) he
  | some x => rfl

lemma encoderInv_append (e : ChunkNameEncoder) (id n : Nat) (c : Bool)
    (e2 : ChunkNameEncoder) (hinv : EncoderInv e)
    (h : e.append_chunk id n c = .ok e2) : EncoderInv e2 := by
  unfold ChunkNameEncoder.append_chunk at h
  by_cases h0 : e.num_samples = 0
  · rw [if_pos h0] at h
    by_cases hn : n = 0
    · rw [if_pos hn] at h; cases h
    · rw [if_neg hn] at h
      by_cases hov : id < uint64Mod ∧ n - 1 < uint64Mod
      · rw [if_pos hov] at h
        cases h
        constructor
        · simp
        · rfl
      · rw [if_neg hov] at h; cases h
  · rw [if_neg h0] at h
    by_cases hc : n = 0 ∧ e.connectivity.getLastD false = false
    · rw [if_pos hc] at h; cases h
    · rw [if_neg hc] at h
      by_cases hov : id < uint64Mod ∧ (e.num_samples - 1) + n < uint64Mod
      · rw [if_pos hov] at h
        cases h
        refine ⟨?_, rfl⟩
        have hne : e.encoded ≠ [] := by
          intro hcontra
          apply h0
          unfold ChunkNameEncoder.num_samples
          rw [hcontra]
          rfl
        have hlast := num_samples_eq_getLastD e hne
        rw [List.map_append]
        apply sorted_append_singleton hinv.1
        intro y hy
        have hy2 := sorted_le_getLastD hinv.1 y hy
        rw [map_snd_getLastD e.encoded hne] at hy2
        omega
      · rw [if_neg hov] at h; cases h

/-- num_samples of an encoder whose encoded array ends in the entry p is p.2 + 1. -/
lemma num_samples_mk_append (l : List (Nat × Nat)) (p : Nat × Nat) (conn : List Bool) :
    (ChunkNameEncoder.mk (l ++ [p]) conn).num_samples = p.2 + 1 := by
  unfold ChunkNameEncoder.num_samples
  rw [List.getLast?_concat]

/-- A successful append grows num_samples by exactly the sample count of the new chunk. -/
lemma append_num_samples (e : ChunkNameEncoder) (id n : Nat) (c : Bool)
    (e2 : ChunkNameEncoder) (h : e.append_chunk id n c = .ok e2) :
    e2.num_samples = e.num_samples + n := by
  unfold ChunkNameEncoder.append_chunk at h
  by_cases h0 : e.num_samples = 0
  · rw [if_pos h0] at h
    by_cases hn : n = 0
    · rw [if_pos hn] at h; cases h
    · rw [if_neg hn] at h
      by_cases hov : id < uint64Mod ∧ n - 1 < uint64Mod
      · rw [if_pos hov] at h
        cases h
        have hv : (ChunkNameEncoder.mk [(id, n - 1)] [c]).num_samples = n - 1 + 1 := rfl
        rw [hv, h0]
        omega
      · rw [if_neg hov] at h; cases h
  · rw [if_neg h0] at h
    by_cases hc : n = 0 ∧ e.connectivity.getLastD false = false
    · rw [if_pos hc] at h; cases h
    · rw [if_neg hc] at h
      by_cases hov : id < uint64Mod ∧ (e.num_samples - 1) + n < uint64Mod
      · rw [if_pos hov] at h
        cases h
        rw [num_samples_mk_append]
        show (e.num_samples - 1) + n + 1 = e.num_samples + n
        omega
      · rw [if_neg hov] at h; cases h

/-- What a successful extend implies about its arguments and the prior state. -/
lemma extend_ok_facts (e : ChunkNameEncoder) (n : Nat) (c : Bool)
    (e2 : ChunkNameEncoder) (h : e.extend_chunk n c = .ok e2) :
    n ≠ 0 ∧ e.num_samples ≠ 0 ∧ e.encoded ≠ [] := by
  unfold ChunkNameEncoder.extend_chunk at h
  by_cases hn : n = 0
  · rw [if_pos hn] at h; cases h
  · rw [if_neg hn] at h
    by_cases h0 : e.num_samples = 0
    · rw [if_pos h0] at h; cases h
    · rw [if_neg h0] at h
      by_cases hc : e.connectivity.getLastD false = true
      · rw [if_pos hc] at h; cases h
      · refine ⟨hn, h0, ?_⟩
        intro hcontra
        apply h0
        unfold ChunkNameEncoder.num_samples
        rw [hcontra]
        rfl

lemma encoderInv_extend (e : ChunkNameEncoder) (n : Nat) (c : Bool)
    (e2 : ChunkNameEncoder) (hinv : EncoderInv e)
    (hnw : (e.encoded.getLastD (0, 0)).2 + n < uint64Mod)
    (h : e.extend_chunk n c = .ok e2) : EncoderInv e2 := by
  unfold ChunkNameEncoder.extend_chunk at h
  by_cases hn : n = 0
  · rw [if_pos hn] at h; cases h
  · rw [if_neg hn] at h
    by_cases h0 : e.num_samples = 0
    · rw [if_pos h0] at h; cases h
    · rw [if_neg h0] at h
      by_cases hc : e.connectivity.getLastD false = true
      · rw [if_pos hc] at h; cases h
      · rw [if_neg hc] at h
        cases h
        refine ⟨?_, rfl⟩
        have hne : e.encoded ≠ [] := by
          intro hcontra
          apply h0
          unfold ChunkNameEncoder.num_samples
          rw [hcontra]
          rfl
        rw [List.map_append, Nat.mod_eq_of_lt hnw]
        apply sorted_append_singleton
        · exact List.Pairwise.sublist ((List.dropLast_sublist e.encoded).map Prod.snd) hinv.1
        · intro y hy
          have hmem : y ∈ e.encoded.map Prod.snd :=
            List.Sublist.subset ((List.dropLast_sublist e.encoded).map Prod.snd) hy
          have hy2 := sorted_le_getLastD hinv.1 y hmem
          rw [map_snd_getLastD e.encoded hne] at hy2
          omega

/-- A successful non-wrapping extend also grows num_samples by its sample count. -/
lemma extend_num_samples (e : ChunkNameEncoder) (n : Nat) (c : Bool)
    (e2 : ChunkNameEncoder)
    (hnw : (e.encoded.getLastD (0, 0)).2 + n < uint64Mod)
    (h : e.extend_chunk n c = .ok e2) :
    e2.num_samples = e.num_samples + n := by
  obtain ⟨hn, h0, hne⟩ := extend_ok_facts e n c e2 h
  unfold ChunkNameEncoder.extend_chunk at h
  rw [if_neg hn, if_neg h0] at h
  by_cases hc : e.connectivity.getLastD false = true
  · rw [if_pos hc] at h; cases h
  · rw [if_neg hc] at h
    cases h
    rw [num_samples_mk_append]
    rw [Nat.mod_eq_of_lt hnw]
    show (e.encoded.getLastD (0, 0)).2 + n + 1 = e.num_samples + n
    have := num_samples_eq_getLastD e hne
    omega

/-- The number of samples an operation asks to record. -/
def opSamples : EncoderOp → Nat
  | .append _ n _ => n
  | .extend n _ => n

/-- Total samples a sequence of operations asks to record. -/
def totalSamples (ops : List EncoderOp) : Nat := (ops.map opSamples).sum

/-- Counterexample to claim C8 as stated: a successful operation sequence need not
preserve the monotonicity invariant.  extend_chunk's in-place addition lands in the
np.uint64 array and wraps modulo 2^64, so after two appends reaching last index 6, an
extend by 2^64 - 2 succeeds and drops the final last_sample_index to 4, below the
previous entry's 5. -/
theorem C8_encoder_wraparound_counterexample :
    runEncoderOps
        [.append 10 6 true, .append 11 1 false, .extend 18446744073709551614 false]
        ⟨[], []⟩ =
      .ok ⟨[(10, 5), (11, 4)], [true, false]⟩ ∧
      ¬ EncoderInv ⟨[(10, 5), (11, 4)], [true, false]⟩ :=
  ⟨by rfl, by decide⟩

/-- Claim C8, amended: a sequence of successful append_chunk and extend_chunk operations
preserves the invariant that last_sample_index is non-decreasing along encoded and that
num_samples equals the final entry's last_sample_index + 1 (0 for the empty encoder),
provided the starting num_samples plus the total samples the operations record stays
within the uint64 range, so that no extend_chunk wraps modulo 2^64 (append_chunk already
fails with OverflowError instead of wrapping). -/
theorem C8_encoder_ops_preserve_invariant (ops : List EncoderOp) (e e2 : ChunkNameEncoder)
    (hinv : EncoderInv e) (hbound : e.num_samples + totalSamples ops ≤ uint64Mod)
    (hrun : runEncoderOps ops e = .ok e2) : EncoderInv e2 := by
  induction ops generalizing e with
  | nil => cases hrun; exact hinv
  | cons op rest ih =>
    unfold runEncoderOps at hrun
    cases hop : applyEncoderOp e op with
    | error s => rw [hop] at hrun; cases hrun
    | ok emid =>
      rw [hop] at hrun
      have hts : totalSamples (op :: rest) = opSamples op + totalSamples rest := by
        unfold totalSamples
        simp
      cases op with
      | append id n c =>
        have hos : opSamples (EncoderOp.append id n c) = n := rfl
        rw [hts, hos] at hbound
        have hns := append_num_samples e id n c emid hop
        exact ih emid (encoderInv_append e id n c emid hinv hop) (by omega) hrun
      | extend n c =>
        have hos : opSamples (EncoderOp.extend n c) = n := rfl
        rw [hts, hos] at hbound
        obtain ⟨hn, h0, hne⟩ := extend_ok_facts e n c emid hop
        have hlast := num_samples_eq_getLastD e hne
        have hnw : (e.encoded.getLastD (0, 0)).2 + n < uint64Mod := by omega
        have hns := extend_num_samples e n c emid hnw hop
        exact ih emid (encoderInv_extend e n c emid hinv hnw hop) (by omega) hrun

/-- Witness for C8: a concrete run (append 2 samples spilling into a second chunk, close
it, then extend by 3 samples) starting from the empty encoder, well within the uint64
budget. -/
theorem C8_encoder_ops_preserve_invariant_witness :
    EncoderInv ⟨[], []⟩ ∧
      ChunkNameEncoder.num_samples ⟨[], []⟩ +
          totalSamples [.append 10 2 true, .append 11 0 false, .extend 3 false] ≤
        uint64Mod ∧
      runEncoderOps
          [.append 10 2 true, .append 11 0 false, .extend 3 false]
          ⟨[], []⟩ =
        .ok ⟨[(10, 1), (11, 4)], [true, false]⟩ ∧
      EncoderInv ⟨[(10, 1), (11, 4)], [true, false]⟩ :=
  ⟨by decide, by decide, by rfl,
    C8_encoder_ops_preserve_invariant
      [.append 10 2 true, .append 11 0 false, .extend 3 false]
      ⟨[], []⟩ ⟨[(10, 1), (11, 4)], [true, false]⟩ (by decide) (by decide) (by rfl)⟩

/-- Inner loop of numpy searchsorted with side left: binary search for the insertion
point of v, i.e. the smallest index whose element is ≥ v. -/
def searchsortedAux (a : List Nat) (v lo hi : Nat) : Nat :=
  if _h : lo < hi then
    if a.getD ((lo + hi) / 2) 0 < v then searchsortedAux a v ((lo + hi) / 2 + 1) hi
    else searchsortedAux a v lo ((lo + hi) / 2)
  else lo
termination_by hi - lo
decreasing_by
  · omega
  · omega

/-- Embeds np.searchsorted(a, v) with the default side (left). -/
def searchsorted (a : List Nat) (v : Nat) : Nat := searchsortedAux a v 0 a.length

/-- The condition of the while loop in get_chunk_names at position idx: the entry ends
exactly at the requested sample and is connected to the next chunk. -/
abbrev walkCond (e : ChunkNameEncoder) (s i : Nat) : Prop :=
  (e.encoded.getD i (0, 0)).2 = s ∧ e.connectivity.getD i false = true

/-- The while loop of get_chunk_names: as long as the current entry ends exactly at the
requested sample and is connected onward, advance and collect the next chunk id. -/
def walkConnected (e : ChunkNameEncoder) (sampleIndex idx : Nat) : List Nat :=
  if _h : idx < e.encoded.length then
    if walkCond e sampleIndex idx then
      (e.encoded.getD (idx + 1) (0, 0)).1 :: walkConnected e sampleIndex (idx + 1)
    else []
  else []
termination_by e.encoded.length - idx
decreasing_by omega

/-- Embeds get_chunk_names: raise on an empty encoding, binary-search the last_index
column for the sample, then walk connectivity, rendering each collected chunk id. -/
def ChunkNameEncoder.get_chunk_names (e : ChunkNameEncoder) (sampleIndex : Nat) :
    Except String (List (List Char)) :=
  if e.num_samples = 0 then
    .error "Index is out of bounds for an empty chunk names encoding."
  else
    .ok
      (((e.encoded.getD (searchsorted (e.encoded.map Prod.snd) sampleIndex) (0, 0)).1 ::
          walkConnected e sampleIndex (searchsorted (e.encoded.map Prod.snd) sampleIndex)).map
        chunk_name_from_id)

lemma searchsortedAux_spec (a : List Nat) (v : Nat)
    (hmono : ∀ i j, i ≤ j → j < a.length → a.getD i 0 ≤ a.getD j 0) :
    ∀ fuel lo hi, hi - lo ≤ fuel → lo ≤ hi → hi ≤ a.length →
      (∀ j, j < lo → a.getD j 0 < v) →
      (∀ j, hi ≤ j → j < a.length → v ≤ a.getD j 0) →
      searchsortedAux a v lo hi ≤ hi ∧
        (∀ j, j < searchsortedAux a v lo hi → a.getD j 0 < v) ∧
        (∀ j, searchsortedAux a v lo hi ≤ j → j < a.length → v ≤ a.getD j 0) := by
  intro fuel
  induction fuel with
  | zero =>
    intro lo hi hfuel hlohi hhi hP1 hP2
    have heq : lo = hi := by omega
    rw [searchsortedAux, dif_neg (by omega)]
    exact ⟨by omega, hP1, fun j hj hjlen => hP2 j (by omega) hjlen⟩
  | succ fuel ih =>
    intro lo hi hfuel hlohi hhi hP1 hP2
    rw [searchsortedAux]
    by_cases hlt : lo < hi
    · rw [dif_pos hlt]
      have hmidlt : (lo + hi) / 2 < hi := by omega
      have hmidge : lo ≤ (lo + hi) / 2 := by omega
      by_cases hv : a.getD ((lo + hi) / 2) 0 < v
      · rw [if_pos hv]
        have hres := ih ((lo + hi) / 2 + 1) hi (by omega) (by omega) hhi
          (fun j hj => by
            by_cases hjlo : j < lo
            · exact hP1 j hjlo
            · exact lt_of_le_of_lt
                (hmono j ((lo + hi) / 2) (by omega) (by omega)) hv)
          hP2
        exact hres
      · rw [if_neg hv]
        have hres := ih lo ((lo + hi) / 2) (by omega) (by omega) (by omega) hP1
          (fun j hj hjlen =>
            le_trans (by omega) (hmono ((lo + hi) / 2) j hj hjlen))
        exact ⟨by omega, hres.2.1, hres.2.2⟩
    · rw [dif_neg hlt]
      have hen : lo = hi := by omega
      exact ⟨by omega, hP1, fun j hj hjlen => hP2 j (by omega) hjlen⟩

/-- Binary-search correctness: on a non-decreasing list containing an element ≥ v,
searchsorted returns the smallest index whose element is ≥ v. -/
lemma searchsorted_least (a : List Nat) (v : Nat)
    (hmono : ∀ i j, i ≤ j → j < a.length → a.getD i 0 ≤ a.getD j 0)
    (hne : a ≠ []) (hlast : v ≤ a.getD (a.length - 1) 0) :
    searchsorted a v < a.length ∧ v ≤ a.getD (searchsorted a v) 0 ∧
      ∀ j, j < searchsorted a v → a.getD j 0 < v := by
  unfold searchsorted
  have hlen : 0 < a.length := List.length_pos.mpr hne
  have hres := searchsortedAux_spec a v hmono a.length 0 a.length (by omega) (by omega)
    (le_refl _) (fun j hj => absurd hj (by omega)) (fun j hj hjlen => by omega)
  rcases hres with ⟨hle, hbelow, habove⟩
  have hlt : searchsortedAux a v 0 a.length < a.length := by
    rcases Nat.lt_or_ge (searchsortedAux a v 0 a.length) a.length with h | h
    · exact h
    · exact absurd (hbelow (a.length - 1) (by omega)) (by omega)
  exact ⟨hlt, habove _ (le_refl _) hlt, hbelow⟩

lemma map_snd_getD (l : List (Nat × Nat)) (j : Nat) (hj : j < l.length) :
    (l.map Prod.snd).getD j 0 = (l.getD j (0, 0)).2 := by
  induction l generalizing j with
  | nil => cases hj
  | cons a t ih =>
    cases j with
    | zero => rfl
    | succ j2 => exact ih j2 (by simpa using hj)

lemma walk_spec (e : ChunkNameEncoder) (s : Nat)
    (hclosed : e.connectivity.getD (e.encoded.length - 1) false = false) :
    ∀ fuel idx, e.encoded.length - idx ≤ fuel → idx < e.encoded.length →
      ∃ k,
        walkConnected e s idx =
          (List.range k).map (fun j => (e.encoded.getD (idx + 1 + j) (0, 0)).1) ∧
        (∀ j, j < k → walkCond e s (idx + j)) ∧
        ¬ walkCond e s (idx + k) ∧ idx + k < e.encoded.length := by
  intro fuel
  induction fuel with
  | zero => intro idx hfuel hidx; omega
  | succ fuel ih =>
    intro idx hfuel hidx
    by_cases hcond : walkCond e s idx
    · have hnotlast : idx + 1 < e.encoded.length := by
        rcases Nat.lt_or_ge (idx + 1) e.encoded.length with h | h
        · exact h
        · have heq : idx = e.encoded.length - 1 := by omega
          have hconn := hcond.2
          rw [heq, hclosed] at hconn
          cases hconn
      obtain ⟨k2, hwalk, hall, hstop, hbound⟩ := ih (idx + 1) (by omega) hnotlast
      refine ⟨k2 + 1, ?_, ?_, ?_, by omega⟩
      · rw [walkConnected, dif_pos hidx, if_pos hcond, hwalk,
          List.range_succ_eq_map, List.map_cons, List.map_map]
        refine congrArg₂ _ (by norm_num) (List.map_congr_left fun j hj => ?_)
        simp only [Function.comp_apply]
        exact congrArg (fun t => (e.encoded.getD t (0, 0)).1) (by omega)
      · intro j hj
        cases j with
        | zero => simpa using hcond
        | succ j2 =>
          have := hall j2 (by omega)
          have harith : idx + 1 + j2 = idx + (j2 + 1) := by omega
          rwa [harith] at this
      · have harith : idx + 1 + k2 = idx + (k2 + 1) := by omega
        rwa [harith] at hstop
    · exact ⟨0, by rw [walkConnected, dif_pos hidx, if_neg hcond]; simp,
        fun j hj => by omega, by simpa using hcond, by simpa using hidx⟩

/-- Claim C5: on a non-empty well-formed encoder and an in-range sample index,
get_chunk_names binary-searches for the smallest index i whose last_sample_index is
≥ sample_index, starts the result with that entry's chunk name, and extends it with the
chunk name of the following entry as long as the current entry ends exactly at
sample_index and is connected to the next chunk, returning the ordered list. -/
theorem C5_get_chunk_names_spec (e : ChunkNameEncoder) (s : Nat)
    (hlen : e.connectivity.length = e.encoded.length)
    (hsorted : List.Sorted (· ≤ ·) (e.encoded.map Prod.snd))
    (hclosed : e.connectivity.getD (e.encoded.length - 1) false = false)
    (hs : s < e.num_samples) :
    ∃ i k,
      i < e.encoded.length ∧
      s ≤ (e.encoded.getD i (0, 0)).2 ∧
      (∀ j, j < i → (e.encoded.getD j (0, 0)).2 < s) ∧
      (∀ j, j < k → (e.encoded.getD (i + j) (0, 0)).2 = s ∧
        e.connectivity.getD (i + j) false = true) ∧
      ¬ ((e.encoded.getD (i + k) (0, 0)).2 = s ∧
        e.connectivity.getD (i + k) false = true) ∧
      e.get_chunk_names s =
        .ok ((List.range (k + 1)).map
          (fun j => chunk_name_from_id (e.encoded.getD (i + j) (0, 0)).1)) := by
  have hne : e.encoded ≠ [] := by
    intro hcontra
    unfold ChunkNameEncoder.num_samples at hs
    rw [hcontra] at hs
    simp at hs
  have hlenpos : 0 < e.encoded.length := List.length_pos.mpr hne
  have hmaplen : (e.encoded.map Prod.snd).length = e.encoded.length := List.length_map _ _
  have hmono : ∀ i j, i ≤ j → j < (e.encoded.map Prod.snd).length →
      (e.encoded.map Prod.snd).getD i 0 ≤ (e.encoded.map Prod.snd).getD j 0 := by
    intro i j hij hjlen
    rcases Nat.lt_or_ge i j with h | h
    · have := List.pairwise_iff_getElem.mp hsorted i j (by omega) (by omega) h
      rwa [List.getD_eq_getElem _ _ (by omega), List.getD_eq_getElem _ _ (by omega)]
    · have heq : i = j := by omega
      rw [heq]
  have hlast : s ≤ (e.encoded.map Prod.snd).getD ((e.encoded.map Prod.snd).length - 1) 0 := by
    rw [hmaplen, map_snd_getD _ _ (by omega)]
    have := num_samples_eq_getLastD e hne
    have hgetD : e.encoded.getLastD (0, 0) = e.encoded.getD (e.encoded.length - 1) (0, 0) := by
      rw [List.getLastD_eq_getLast?, List.getLast?_eq_getElem?,
        List.getD_eq_getElem?_getD]
    rw [hgetD] at this
    omega
  have hmapne : e.encoded.map Prod.snd ≠ [] := by
    intro hcontra
    rw [← List.length_eq_zero] at hcontra
    omega
  obtain ⟨hilt, hige, hleast⟩ :=
    searchsorted_least (e.encoded.map Prod.snd) s hmono hmapne hlast
  rw [hmaplen] at hilt
  obtain ⟨k, hwalk, hall, hstop, hbound⟩ :=
    walk_spec e s hclosed (e.encoded.length - searchsorted (e.encoded.map Prod.snd) s)
      (searchsorted (e.encoded.map Prod.snd) s) (le_refl _) hilt
  refine ⟨searchsorted (e.encoded.map Prod.snd) s, k, hilt, ?_, ?_, ?_, ?_, ?_⟩
  · rwa [map_snd_getD _ _ hilt] at hige
  · intro j hj
    have := hleast j hj
    rwa [map_snd_getD _ _ (by omega)] at this
  · intro j hj
    exact hall j hj
  · exact hstop
  · unfold ChunkNameEncoder.get_chunk_names
    rw [if_neg (by omega)]
    rw [hwalk, List.range_succ_eq_map, List.map_cons, List.map_cons, List.map_map,
      List.map_map]
    refine congrArg _ (congrArg₂ _ (by norm_num) ?_)
    refine List.map_congr_left fun j hj => ?_
    simp only [Function.comp_apply]
    exact congrArg (fun t => chunk_name_from_id (e.encoded.getD t (0, 0)).1) (by omega)

/-- Witness for C5: a concrete four-chunk encoder in which sample 2 spills from chunk
id 11 into chunk id 12. -/
theorem C5_get_chunk_names_spec_witness :
    ∃ i k,
      i < (ChunkNameEncoder.mk [(10, 0), (11, 2), (12, 2), (13, 5)]
            [false, true, false, false]).encoded.length ∧
      2 ≤ ((ChunkNameEncoder.mk [(10, 0), (11, 2), (12, 2), (13, 5)]
            [false, true, false, false]).encoded.getD i (0, 0)).2 ∧
      (∀ j, j < i →
        ((ChunkNameEncoder.mk [(10, 0), (11, 2), (12, 2), (13, 5)]
            [false, true, false, false]).encoded.getD j (0, 0)).2 < 2) ∧
      (∀ j, j < k →
        ((ChunkNameEncoder.mk [(10, 0), (11, 2), (12, 2), (13, 5)]
            [false, true, false, false]).encoded.getD (i + j) (0, 0)).2 = 2 ∧
          (ChunkNameEncoder.mk [(10, 0), (11, 2), (12, 2), (13, 5)]
            [false, true, false, false]).connectivity.getD (i + j) false = true) ∧
      ¬ (((ChunkNameEncoder.mk [(10, 0), (11, 2), (12, 2), (13, 5)]
            [false, true, false, false]).encoded.getD (i + k) (0, 0)).2 = 2 ∧
          (ChunkNameEncoder.mk [(10, 0), (11, 2), (12, 2), (13, 5)]
            [false, true, false, false]).connectivity.getD (i + k) false = true) ∧
      (ChunkNameEncoder.mk [(10, 0), (11, 2), (12, 2), (13, 5)]
            [false, true, false, false]).get_chunk_names 2 =
        .ok ((List.range (k + 1)).map
          (fun j => chunk_name_from_id
            (((ChunkNameEncoder.mk [(10, 0), (11, 2), (12, 2), (13, 5)]
              [false, true, false, false]).encoded.getD (i + j) (0, 0)).1))) :=
  C5_get_chunk_names_spec
    (ChunkNameEncoder.mk [(10, 0), (11, 2), (12, 2), (13, 5)] [false, true, false, false])
    2 (by decide) (by decide) (by decide) (by decide)

/-!
Part 2: embedding of hub/core/tensor.py together with the chunk engine it drives.

The chunk write path (hub.core.chunk_engine.write.write_bytes) and the byte assembly of
sample_from_index_entry are not under src/ (only their callers are); those two
definitions are modelled from the spec and are marked as such.  Chunks are addressed by
ordinal here; the ChunkNameEncoder verified above maps ordinals to chunk ids.
-/

/-- A payload carried by a TensorMetaMismatchError: the source passes strings (dtype),
shape tuples (min_shape/max_shape) or integers (a rank) as expected/got values. -/
inductive MetaVal where
  | str (s : String)
  | shape (l : List Nat)
  | nat (n : Nat)
deriving DecidableEq, Repr

/-- Errors raised by the embedded tensor layer. -/
inductive HubError where
  | tensorMetaMismatch (field : String) (expected got : MetaVal)
  | notImplemented (msg : String)
  | tensorDoesNotExist (key : String)
deriving DecidableEq, Repr

/-- The persisted per-tensor meta, as read and written by tensor.py. -/
structure TensorMeta where
  dtype : String
  length : Nat
  min_shape : List Nat
  max_shape : List Nat
  chunk_size : Nat
deriving DecidableEq, Repr

/-- Embeds _check_array_and_tensor_are_compatible, in source order: dtype name first,
then rank against min_shape and max_shape (the array shape includes the batch axis, so
the sample shape is shape[1:]), then the exact-shape checks that raise
NotImplementedError for any dynamically shaped sample. -/
def check_array_and_tensor_are_compatible (tensor_meta : TensorMeta)
    (arrayDtype : String) (arrayShape : List Nat) : Except HubError Unit :=
  if tensor_meta.dtype ≠ arrayDtype then
    .error (.tensorMetaMismatch "dtype" (.str tensor_meta.dtype) (.str arrayDtype))
  else if tensor_meta.min_shape.length ≠ (arrayShape.drop 1).length then
    .error (.tensorMetaMismatch "min_shape" (.shape tensor_meta.min_shape)
      (.nat (arrayShape.drop 1).length))
  else if tensor_meta.max_shape.length ≠ (arrayShape.drop 1).length then
    .error (.tensorMetaMismatch "max_shape" (.shape tensor_meta.max_shape)
      (.nat (arrayShape.drop 1).length))
  else if tensor_meta.max_shape ≠ arrayShape.drop 1 then
    .error (.notImplemented "Dynamic shapes are not supported yet.")
  else if tensor_meta.min_shape ≠ arrayShape.drop 1 then
    .error (.notImplemented "Dynamic shapes are not supported yet.")
  else
    .ok ()

/-- One IndexMap entry: the byte region of one sample, possibly spanning chunks. -/
structure IndexEntry where
  start_chunk : Nat
  end_chunk : Nat
  start_byte : Nat
  end_byte : Nat
  shape : List Nat
deriving DecidableEq, Repr

/-- The storage-side state of one tensor: its meta, its chunks in ordinal order (each a
byte list), and its index map. -/
structure TensorState where
  meta : TensorMeta
  chunks : List (List Nat)
  index_map : List IndexEntry
deriving DecidableEq, Repr

/-- Modelled from the spec: the remainder of a sample buffer is split into
ceil(len/chunk_size) chunks, all full except possibly the final one (§4.3).  An empty
buffer yields one empty chunk so that the sample's entry has a chunk to point into. -/
def splitIntoChunks (b : List Nat) (chunkSize : Nat) : List (List Nat) :=
  if chunkSize = 0 then [b]
  else if _h : b.length ≤ chunkSize then [b]
  else b.take chunkSize :: splitIntoChunks (b.drop chunkSize) chunkSize
termination_by b.length
decreasing_by simp only [List.length_drop]; omega

/-- Modelled from the spec: hub.core.chunk_engine.write.write_bytes is not under src/
(only its callers are).  Per §4.3: if the buffer fits in the final chunk's remaining
capacity, append it there; otherwise fill the final chunk and spill the remainder into
fresh chunks; when there is no final chunk with free capacity the sample starts at byte
0 of a fresh chunk.  One IndexMap entry per sample records the spanned byte region. -/
def write_bytes (b : List Nat) (chunkSize : Nat) (shape : List Nat) (st : TensorState) :
    TensorState :=
  match st.chunks.getLast? with
  | some last =>
    if last.length < chunkSize ∧ b.length ≤ chunkSize - last.length then
      { st with
        chunks := st.chunks.dropLast ++ [last ++ b]
        index_map := st.index_map ++
          [⟨st.chunks.length - 1, st.chunks.length - 1, last.length,
            last.length + b.length, shape⟩] }
    else if last.length < chunkSize then
      { st with
        chunks := st.chunks.dropLast ++
          [last ++ b.take (chunkSize - last.length)] ++
          splitIntoChunks (b.drop (chunkSize - last.length)) chunkSize
        index_map := st.index_map ++
          [⟨st.chunks.length - 1,
            st.chunks.length - 1 +
              (splitIntoChunks (b.drop (chunkSize - last.length)) chunkSize).length,
            last.length,
            ((splitIntoChunks (b.drop (chunkSize - last.length)) chunkSize).getLastD []).length,
            shape⟩] }
    else
      { st with
        chunks := st.chunks ++ splitIntoChunks b chunkSize
        index_map := st.index_map ++
          [⟨st.chunks.length,
            st.chunks.length + (splitIntoChunks b chunkSize).length - 1, 0,
            ((splitIntoChunks b chunkSize).getLastD []).length, shape⟩] }
  | none =>
    { st with
      chunks := splitIntoChunks b chunkSize
      index_map := st.index_map ++
        [⟨0, (splitIntoChunks b chunkSize).length - 1, 0,
          ((splitIntoChunks b chunkSize).getLastD []).length, shape⟩] }

/-- Modelled from the spec: the byte assembly of sample_from_index_entry (§4.3 read).
A single-chunk sample is one byte-range read; a multi-chunk sample concatenates the
tail of the first chunk, the full intermediate chunks, and the head of the final one. -/
def read_entry_bytes (chunks : List (List Nat)) (e : IndexEntry) : List Nat :=
  if e.start_chunk = e.end_chunk then
    ((chunks.getD e.start_chunk []).drop e.start_byte).take (e.end_byte - e.start_byte)
  else
    (chunks.getD e.start_chunk []).drop e.start_byte ++
      ((List.range' (e.start_chunk + 1) (e.end_chunk - e.start_chunk - 1)).map
        (fun i => chunks.getD i [])).flatten ++
      (chunks.getD e.end_chunk []).take e.end_byte

/-- A materialized numpy array: a dtype name, a shape, and its row-major payload
(payload bytes are opaque here, per the spec's "opaque byte slab" boundary). -/
structure NDArr where
  dtype : String
  shape : List Nat
  data : List Nat
deriving DecidableEq, Repr

/-- Embeds read_samples_from_tensor with the trivial index: read every index-map entry
and reinterpret each buffer with the entry's recorded shape and the meta dtype. -/
def read_all_samples (st : TensorState) : List NDArr :=
  st.index_map.map (fun e => ⟨st.meta.dtype, e.shape, read_entry_bytes st.chunks e⟩)

/-- numpy stack of same-shaped sample arrays: shape (n,) + S, payloads concatenated. -/
def stack_arrays (dtype : String) (sampleShape : List Nat) (bufs : List (List Nat)) :
    NDArr :=
  ⟨dtype, bufs.length :: sampleShape, bufs.flatten⟩

/-- Embeds the full read of tensor.numpy(): read all samples and stack them with
np.array, which forms an (n, ...) array when all samples share one shape (and an empty
array of shape (0,) when there are none). -/
def tensor_numpy (st : TensorState) : Option NDArr :=
  match read_all_samples st with
  | [] => some ⟨st.meta.dtype, [0], []⟩
  | a :: rest =>
    if (a :: rest).all (fun x => x.shape = a.shape) then
      some ⟨st.meta.dtype, (a :: rest).length :: a.shape,
        ((a :: rest).map NDArr.data).flatten⟩
    else
      none

/-- A batched array as passed to add_samples_to_tensor: dtype, the shape of one sample
(the full shape is samples.length :: sample_shape), and the per-sample payloads. -/
structure BatchArr where
  dtype : String
  sample_shape : List Nat
  samples : List (List Nat)
deriving DecidableEq, Repr

/-- Embeds create_tensor: writes a fresh meta with length 0; no chunks, no entries. -/
def create_tensor (dtype : String) (min_shape max_shape : List Nat) (chunk_size : Nat) :
    TensorState :=
  ⟨⟨dtype, 0, min_shape, max_shape, chunk_size⟩, [], []⟩

/-- Embeds add_samples_to_tensor on an existing tensor.  Validation runs before any
chunk write, so on a validation error the state is returned untouched; otherwise each
sample buffer is written through write_bytes with the meta chunk_size and finally
meta.length is increased by the batch length and written back. -/
def add_samples_to_tensor (arr : BatchArr) (st : TensorState) :
    TensorState × Option HubError :=
  match check_array_and_tensor_are_compatible st.meta arr.dtype
      (arr.samples.length :: arr.sample_shape) with
  | .error e => (st, some e)
  | .ok _ =>
    let st2 := arr.samples.foldl
      (fun s b => write_bytes b s.meta.chunk_size arr.sample_shape s) st
    ({ st2 with
        meta :=
          { st2.meta with length := st2.meta.length + arr.samples.length } },
      none)

/-- Claim C6: appending any float64 array to a tensor whose meta declares dtype uint8
fails with TensorMetaMismatch("dtype", "uint8", "float64") raised before any bytes are
written: the returned state is the input state unchanged and its length is still 0. -/
theorem C6_dtype_mismatch_rejected (arr : BatchArr) (st : TensorState)
    (hdt : arr.dtype = "float64") (hmeta : st.meta.dtype = "uint8")
    (hlen : st.meta.length = 0) :
    add_samples_to_tensor arr st =
      (st, some (.tensorMetaMismatch "dtype" (.str "uint8") (.str "float64"))) ∧
      (add_samples_to_tensor arr st).1.meta.length = 0 := by
  have hcheck : check_array_and_tensor_are_compatible st.meta arr.dtype
      (arr.samples.length :: arr.sample_shape) =
      .error (.tensorMetaMismatch "dtype" (.str "uint8") (.str "float64")) := by
    unfold check_array_and_tensor_are_compatible
    rw [hdt, hmeta]
    rfl
  constructor
  · unfold add_samples_to_tensor
    rw [hcheck]
  · unfold add_samples_to_tensor
    rw [hcheck]
    exact hlen

/-- Witness for C6: a freshly created uint8 tensor rejects a (1, 100) float64 batch. -/
theorem C6_dtype_mismatch_rejected_witness :
    add_samples_to_tensor ⟨"float64", [100], [List.replicate 100 1]⟩
        (create_tensor "uint8" [] [] 4096) =
      (create_tensor "uint8" [] [] 4096,
        some (.tensorMetaMismatch "dtype" (.str "uint8") (.str "float64"))) ∧
      (add_samples_to_tensor ⟨"float64", [100], [List.replicate 100 1]⟩
        (create_tensor "uint8" [] [] 4096)).1.meta.length = 0 :=
  C6_dtype_mismatch_rejected ⟨"float64", [100], [List.replicate 100 1]⟩
    (create_tensor "uint8" [] [] 4096) rfl rfl rfl

/-- Claim C2 (evaluation of the code at the failing input): after the history of
scenario 2 begins with extend(ones((32, 28, 28))) the meta records
min_shape = max_shape = (28, 28); the compatibility check in src/hub/core/tensor.py
then rejects the next batch ones((10, 36, 11)) — dtype matches and rank matches, but
the per-dimension sizes differ — with NotImplementedError("Dynamic shapes are not
supported yet.") instead of accepting it as the claim (and test_compute_dynamic_tensor)
requires. -/
theorem C2_dynamic_shape_rejected :
    check_array_and_tensor_are_compatible
        ⟨"float64", 32, [28, 28], [28, 28], 4096⟩ "float64" [10, 36, 11] =
      .error (.notImplemented "Dynamic shapes are not supported yet.") ∧
    add_samples_to_tensor ⟨"float64", [36, 11], [List.replicate 396 1]⟩
        ⟨⟨"float64", 32, [28, 28], [28, 28], 4096⟩, [], []⟩ =
      (⟨⟨"float64", 32, [28, 28], [28, 28], 4096⟩, [], []⟩,
        some (.notImplemented "Dynamic shapes are not supported yet.")) := by
  constructor
  · rfl
  · rfl

/-- Embeds Python min(iterable, default): the default for an empty iterable, otherwise
the left fold of two-argument min over the items. -/
def pyMinDefault (l : List Nat) (dflt : Nat) : Nat :=
  match l with
  | [] => dflt
  | x :: xs => xs.foldl min x

/-- Embeds Dataset.__len__: min(map(len, self.tensors.values()), default=0), with each
tensor represented by its length (Tensor.__len__ is meta.length). -/
def dataset_len (tensorLengths : List Nat) : Nat := pyMinDefault tensorLengths 0

lemma foldl_min_spec (xs : List Nat) : ∀ x : Nat,
    xs.foldl min x ≤ x ∧ (∀ t ∈ xs, xs.foldl min x ≤ t) ∧
      (xs.foldl min x = x ∨ xs.foldl min x ∈ xs) := by
  induction xs with
  | nil => intro x; exact ⟨le_refl _, fun t ht => absurd ht (by simp), Or.inl rfl⟩
  | cons y ys ih =>
    intro x
    have hih := ih (min x y)
    refine ⟨le_trans hih.1 (min_le_left _ _), ?_, ?_⟩
    · intro t ht
      rcases List.mem_cons.mp ht with rfl | hmem
      · exact le_trans hih.1 (min_le_right _ _)
      · exact hih.2.1 t hmem
    · rcases hih.2.2 with heq | hmem
      · rcases min_choice x y with hx | hy
        · exact Or.inl (by rw [List.foldl_cons, heq, hx])
        · exact Or.inr (by rw [List.foldl_cons, heq, hy]; exact List.mem_cons_self _ _)
      · exact Or.inr (List.mem_cons_of_mem _ hmem)

/-- Claim C10: len(ds) is the minimum of the tensor lengths — 0 when the dataset has no
tensors, otherwise a lower bound of every tensor length that is itself attained by some
tensor (so after extending one tensor it is the shortest tensor's count). -/
theorem C10_dataset_len_min (tensorLengths : List Nat) :
    (tensorLengths = [] → dataset_len tensorLengths = 0) ∧
      (∀ t ∈ tensorLengths, dataset_len tensorLengths ≤ t) ∧
      (tensorLengths ≠ [] → dataset_len tensorLengths ∈ tensorLengths) := by
  cases tensorLengths with
  | nil =>
    refine ⟨fun _ => rfl, ?_, ?_⟩
    · intro t ht
      cases ht
    · intro h
      cases h rfl
  | cons x xs =>
    have hspec := foldl_min_spec xs x
    refine ⟨?_, ?_, ?_⟩
    · intro h
      cases h
    · intro t ht
      rcases List.mem_cons.mp ht with rfl | hmem
      · exact hspec.1
      · exact hspec.2.1 t hmem
    · intro _
      show xs.foldl min x ∈ x :: xs
      rcases hspec.2.2 with heq | hmem
      · rw [heq]
        exact List.mem_cons_self _ _
      · exact List.mem_cons_of_mem _ hmem

/-- Witness for C10 on the concrete lengths [4, 16, 9]: len is 4, the shortest. -/
theorem C10_dataset_len_min_witness :
    (([4, 16, 9] : List Nat) = [] → dataset_len [4, 16, 9] = 0) ∧
      (∀ t ∈ ([4, 16, 9] : List Nat), dataset_len [4, 16, 9] ≤ t) ∧
      (([4, 16, 9] : List Nat) ≠ [] → dataset_len [4, 16, 9] ∈ [4, 16, 9]) :=
  C10_dataset_len_min [4, 16, 9]

/-!
Part 3: the CacheLayer.  The LRU write-back cache implementation is not under src/
(only src/hub/core/tests/test_storage_provider.py exercises it), so the layer is
modelled from the spec, §4.2: read/write paths, LRU eviction with dirty write-back,
and flush.  Values are opaque; their byte length is supplied by a size function. -/

/-- Association-list lookup (Python dict read). -/
def alookup {V : Type} : List (String × V) → String → Option V
  | [], _ => none
  | (k2, v) :: rest, k => if k2 = k then some v else alookup rest k

/-- Association-list removal of every binding of a key (Python dict del / overwrite). -/
def aremove {V : Type} : List (String × V) → String → List (String × V)
  | [], _ => []
  | (k2, v) :: rest, k => if k2 = k then aremove rest k else (k2, v) :: aremove rest k

/-- Association-list write: drop any old binding, append the new one at the end. -/
def aset {V : Type} (m : List (String × V)) (k : String) (v : V) : List (String × V) :=
  aremove m k ++ [(k, v)]

/-- Modelled from the spec: the CacheLayer state of §4.2.  lru_sizes is kept oldest
first (the MRU end is the tail); cache_used is the byte budget in use. -/
structure CacheLayer (V : Type) where
  max_cache_size : Nat
  cache_storage : List (String × V)
  next_storage : List (String × V)
  lru_sizes : List (String × Nat)
  dirty_keys : List String
  cache_used : Nat
deriving DecidableEq, Repr

/-- Modelled from the spec: one eviction step.  Take the LRU-oldest key; if dirty,
persist its cached bytes to next_storage and clear its dirty flag; then drop it from
cache_storage and lru_sizes and release its recorded size. -/
def evictOldest {V : Type} (c : CacheLayer V) : CacheLayer V :=
  match c.lru_sizes with
  | [] => c
  | (k, size) :: rest =>
    let c2 :=
      if k ∈ c.dirty_keys then
        match alookup c.cache_storage k with
        | some v =>
          { c with
            next_storage := aset c.next_storage k v
            dirty_keys := c.dirty_keys.erase k }
        | none => { c with dirty_keys := c.dirty_keys.erase k }
      else c
    { c2 with
      cache_storage := aremove c2.cache_storage k
      lru_sizes := rest
      cache_used := c2.cache_used - size }

/-- Modelled from the spec: the _ensure_capacity while-loop, with an explicit fuel that
bounds its iterations (each pass pops one lru_sizes entry, so lru_sizes.length passes
always suffice; the loop also stops by itself once lru_sizes is empty). -/
def ensureCapacityLoop {V : Type} (fuel : Nat) (c : CacheLayer V) (need : Nat) :
    CacheLayer V :=
  match fuel with
  | 0 => c
  | fuel2 + 1 =>
    if c.cache_used + need > c.max_cache_size ∧ c.lru_sizes ≠ [] then
      ensureCapacityLoop fuel2 (evictOldest c) need
    else c

/-- Modelled from the spec: _ensure_capacity(need). -/
def ensure_capacity {V : Type} (c : CacheLayer V) (need : Nat) : CacheLayer V :=
  ensureCapacityLoop c.lru_sizes.length c need

/-- Modelled from the spec: the write path set(key, value).  If the key is cached its
recorded size is released and its lru entry removed; capacity is ensured for the new
value; the value is inserted at the MRU end, marked dirty, and its size charged. -/
def CacheLayer.set {V : Type} (sz : V → Nat) (c : CacheLayer V) (k : String) (v : V) :
    CacheLayer V :=
  let c1 :=
    match alookup c.lru_sizes k with
    | some oldSize =>
      { c with
        cache_used := c.cache_used - oldSize
        lru_sizes := aremove c.lru_sizes k }
    | none => c
  let c2 := ensure_capacity c1 (sz v)
  { c2 with
    cache_storage := aset c2.cache_storage k v
    lru_sizes := c2.lru_sizes ++ [(k, sz v)]
    dirty_keys := if k ∈ c2.dirty_keys then c2.dirty_keys else c2.dirty_keys ++ [k]
    cache_used := c2.cache_used + sz v }

/-- One step of the flush loop: persist one dirty key's cached bytes to next_storage
(a key with no cached value is skipped; under the cache invariant it cannot occur). -/
def flushStep {V : Type} (a : CacheLayer V) (k : String) : CacheLayer V :=
  match alookup a.cache_storage k with
  | some v => { a with next_storage := aset a.next_storage k v }
  | none => a

/-- Modelled from the spec: flush() persists every dirty key's cached bytes to
next_storage, then clears the dirty set; cache contents are untouched. -/
def CacheLayer.flush {V : Type} (c : CacheLayer V) : CacheLayer V :=
  { c.dirty_keys.foldl flushStep c with dirty_keys := [] }

/-- A cache layer with an empty cache, an empty next storage, and a byte budget. -/
def emptyCache (V : Type) (maxSize : Nat) : CacheLayer V :=
  ⟨maxSize, [], [], [], [], 0⟩

/-- One binary megabyte, hub.constants.MB. -/
def MB : Nat := 1048576

/-- The three 16 MB values of scenario 6, distinguished by an opaque content tag. -/
def sixteenMB : Nat → Nat := fun _ => 16 * MB

/-- Claim C3: with a 32 MB budget, after set F1; set F2 the cache holds dirty F1, F2 at
32 MB used; a third 16 MB set evicts exactly the LRU-oldest key F1, persisting its
cached bytes to next_storage because it is dirty; afterwards the dirty set and the
cache hold exactly F2 and F3, next_storage holds exactly F1 with F1's bytes, and
cache_used is still 32 MB. -/
theorem C3_cache_eviction_scenario :
    (CacheLayer.set sixteenMB
        (CacheLayer.set sixteenMB (emptyCache Nat (32 * MB)) "file_1" 1)
        "file_2" 2).dirty_keys = ["file_1", "file_2"] ∧
    (CacheLayer.set sixteenMB
        (CacheLayer.set sixteenMB (emptyCache Nat (32 * MB)) "file_1" 1)
        "file_2" 2).cache_used = 32 * MB ∧
    (CacheLayer.set sixteenMB
        (CacheLayer.set sixteenMB (emptyCache Nat (32 * MB)) "file_1" 1)
        "file_2" 2).next_storage = [] ∧
    (CacheLayer.set sixteenMB
        (CacheLayer.set sixteenMB
          (CacheLayer.set sixteenMB (emptyCache Nat (32 * MB)) "file_1" 1)
          "file_2" 2)
        "file_3" 3) =
      { max_cache_size := 32 * MB
        cache_storage := [("file_2", 2), ("file_3", 3)]
        next_storage := [("file_1", 1)]
        lru_sizes := [("file_2", 16 * MB), ("file_3", 16 * MB)]
        dirty_keys := ["file_2", "file_3"]
        cache_used := 32 * MB } := by
  refine ⟨rfl, rfl, rfl, rfl⟩

lemma alookup_aremove {V : Type} (m : List (String × V)) (k k2 : String) :
    alookup (aremove m k) k2 = if k2 = k then none else alookup m k2 := by
  induction m with
  | nil => by_cases h : k2 = k <;> simp [aremove, alookup, h]
  | cons kv rest ih =>
    obtain ⟨k1, v1⟩ := kv
    by_cases hk : k1 = k
    · subst hk
      by_cases h2 : k2 = k1
      · subst h2
        simp [aremove, alookup, ih]
      · have h3 : ¬ k1 = k2 := fun hc => h2 hc.symm
        simp [aremove, alookup, h2, h3, ih]
    · by_cases h2 : k1 = k2
      · subst h2
        simp [aremove, alookup, hk, ih]
      · by_cases h4 : k2 = k
        · subst h4
          simp [aremove, alookup, hk, h2, ih]
        · simp [aremove, alookup, hk, h2, h4, ih]

lemma alookup_append {V : Type} (m1 m2 : List (String × V)) (k : String) :
    alookup (m1 ++ m2) k =
      match alookup m1 k with
      | some v => some v
      | none => alookup m2 k := by
  induction m1 with
  | nil => simp [alookup]
  | cons kv rest ih =>
    by_cases h : kv.1 = k <;> simp [alookup, h, ih]

lemma alookup_aset {V : Type} (m : List (String × V)) (k0 k : String) (v0 : V) :
    alookup (aset m k0 v0) k = if k0 = k then some v0 else alookup m k := by
  unfold aset
  rw [alookup_append, alookup_aremove]
  by_cases h : k0 = k
  · simp [h, alookup]
  · have h2 : ¬ k = k0 := fun hc => h hc.symm
    simp [h, h2, alookup]
    cases alookup m k <;> rfl

lemma ensureCapacityLoop_noop {V : Type} (fuel : Nat) (c : CacheLayer V) (need : Nat)
    (h : c.cache_used + need ≤ c.max_cache_size) :
    ensureCapacityLoop fuel c need = c := by
  cases fuel with
  | zero => rfl
  | succ f =>
    rw [ensureCapacityLoop, if_neg]
    intro hc
    omega

lemma ensure_capacity_noop {V : Type} (c : CacheLayer V) (need : Nat)
    (h : c.cache_used + need ≤ c.max_cache_size) : ensure_capacity c need = c :=
  ensureCapacityLoop_noop _ c need h

/-- The set path below the byte budget: next_storage and the budget are untouched, the
cache gets the new binding, the key is dirty, previously dirty keys stay dirty, and
cache_used grows by at most the value's size. -/
lemma set_no_evict {V : Type} (sz : V → Nat) (c : CacheLayer V) (k : String) (v : V)
    (h : c.cache_used + sz v ≤ c.max_cache_size) :
    (CacheLayer.set sz c k v).next_storage = c.next_storage ∧
    (CacheLayer.set sz c k v).max_cache_size = c.max_cache_size ∧
    (CacheLayer.set sz c k v).cache_used ≤ c.cache_used + sz v ∧
    (CacheLayer.set sz c k v).cache_storage = aset c.cache_storage k v ∧
    k ∈ (CacheLayer.set sz c k v).dirty_keys ∧
    (∀ k2 ∈ c.dirty_keys, k2 ∈ (CacheLayer.set sz c k v).dirty_keys) := by
  unfold CacheLayer.set
  cases halk : alookup c.lru_sizes k with
  | none =>
    simp only [halk]
    rw [ensure_capacity_noop c (sz v) (by omega)]
    refine ⟨rfl, rfl, le_refl _, rfl, ?_, ?_⟩
    · by_cases hd : k ∈ c.dirty_keys <;> simp [hd]
    · intro k2 hk2
      by_cases hd : k ∈ c.dirty_keys <;> simp [hd, hk2]
  | some oldSize =>
    simp only [halk]
    rw [ensure_capacity_noop
      { c with cache_used := c.cache_used - oldSize, lru_sizes := aremove c.lru_sizes k }
      (sz v) (by show c.cache_used - oldSize + sz v ≤ c.max_cache_size; omega)]
    refine ⟨rfl, rfl,
      by show c.cache_used - oldSize + sz v ≤ c.cache_used + sz v; omega, rfl, ?_, ?_⟩
    · by_cases hd : k ∈ c.dirty_keys <;> simp [hd]
    · intro k2 hk2
      by_cases hd : k ∈ c.dirty_keys <;> simp [hd, hk2]

/-- The last value written to a key by a sequence of set operations. -/
def lastWrite {V : Type} (ops : List (String × V)) (k : String) : Option V :=
  ops.foldl (fun acc kv => if kv.1 = k then some kv.2 else acc) none

lemma lastWrite_foldl {V : Type} (k : String) :
    ∀ (ops : List (String × V)) (acc : Option V),
      ops.foldl (fun a kv => if kv.1 = k then some kv.2 else a) acc =
        match lastWrite ops k with
        | some v => some v
        | none => acc := by
  intro ops
  induction ops with
  | nil => intro acc; rfl
  | cons kv rest ih =>
    intro acc
    show rest.foldl _ (if kv.1 = k then some kv.2 else acc) = _
    rw [ih]
    show _ = (match rest.foldl _ (if kv.1 = k then some kv.2 else none) with
      | some v => some v
      | none => acc)
    rw [ih]
    cases lastWrite rest k with
    | some v => rfl
    | none => by_cases h : kv.1 = k <;> simp [h]

lemma lastWrite_cons {V : Type} (kv : String × V) (rest : List (String × V)) (k : String) :
    lastWrite (kv :: rest) k =
      match lastWrite rest k with
      | some v => some v
      | none => if kv.1 = k then some kv.2 else none := by
  show rest.foldl _ (if kv.1 = k then some kv.2 else none) = _
  rw [lastWrite_foldl]

lemma lastWrite_append {V : Type} (a b : List (String × V)) (k : String) :
    lastWrite (a ++ b) k =
      match lastWrite b k with
      | some v => some v
      | none => lastWrite a k := by
  have h1 : lastWrite (a ++ b) k =
      b.foldl (fun acc kv => if kv.1 = k then some kv.2 else acc) (lastWrite a k) := by
    unfold lastWrite
    rw [List.foldl_append]
  rw [h1, lastWrite_foldl]

lemma lastWrite_none {V : Type} (ops : List (String × V)) (k : String)
    (h : ∀ kv ∈ ops, kv.1 ≠ k) : lastWrite ops k = none := by
  induction ops with
  | nil => rfl
  | cons kv rest ih =>
    rw [lastWrite_cons, ih (fun kv2 h2 => h kv2 (List.mem_cons_of_mem _ h2))]
    simp [h kv (List.mem_cons_self _ _)]

lemma lastWrite_mem {V : Type} (ops : List (String × V)) (k : String) :
    ∀ v : V, lastWrite ops k = some v → ∃ kv ∈ ops, kv.1 = k := by
  induction ops with
  | nil => intro v h; cases h
  | cons kv rest ih =>
    intro v h
    rw [lastWrite_cons] at h
    cases hr : lastWrite rest k with
    | some v2 =>
      obtain ⟨kv2, hmem, hkey⟩ := ih v2 hr
      exact ⟨kv2, List.mem_cons_of_mem _ hmem, hkey⟩
    | none =>
      rw [hr] at h
      by_cases hk : kv.1 = k
      · exact ⟨kv, List.mem_cons_self _ _, hk⟩
      · rw [if_neg hk] at h; cases h

/-- Embeds the writer session: each operation is one set through the cache chain. -/
def applyWrites {V : Type} (sz : V → Nat) (ops : List (String × V)) (c : CacheLayer V) :
    CacheLayer V :=
  ops.foldl (fun acc kv => CacheLayer.set sz acc kv.1 kv.2) c

/-- Total declared size of a sequence of writes. -/
def opsSize {V : Type} (sz : V → Nat) (ops : List (String × V)) : Nat :=
  (ops.map (fun kv => sz kv.2)).sum

/-- A writer whose writes fit in the byte budget never disturbs next_storage: the base
store keeps its pre-session (last-flushed) content, while the cache accumulates the
writes as dirty entries. -/
lemma applyWrites_no_evict {V : Type} (sz : V → Nat) :
    ∀ (ops : List (String × V)) (c : CacheLayer V),
      c.cache_used + opsSize sz ops ≤ c.max_cache_size →
      (applyWrites sz ops c).next_storage = c.next_storage ∧
      (applyWrites sz ops c).max_cache_size = c.max_cache_size ∧
      (applyWrites sz ops c).cache_used ≤ c.cache_used + opsSize sz ops ∧
      (∀ k, alookup (applyWrites sz ops c).cache_storage k =
        (match lastWrite ops k with
         | some v => some v
         | none => alookup c.cache_storage k)) ∧
      (∀ k v, lastWrite ops k = some v → k ∈ (applyWrites sz ops c).dirty_keys) ∧
      (∀ k2 ∈ c.dirty_keys, k2 ∈ (applyWrites sz ops c).dirty_keys) := by
  intro ops
  induction ops with
  | nil =>
    intro c hsum
    refine ⟨rfl, rfl, ?_, fun k => rfl, ?_, fun k2 h => h⟩
    · show c.cache_used ≤ c.cache_used + opsSize sz []
      omega
    · intro k v h
      cases h
  | cons kv rest ih =>
    intro c hsum
    have hsz : c.cache_used + sz kv.2 ≤ c.max_cache_size := by
      unfold opsSize at hsum
      simp [List.map_cons, List.sum_cons] at hsum
      omega
    obtain ⟨hnext, hmax, hused, hcache, hdirty, hdmono⟩ :=
      set_no_evict sz c kv.1 kv.2 hsz
    have hsum2 : (CacheLayer.set sz c kv.1 kv.2).cache_used + opsSize sz rest ≤
        (CacheLayer.set sz c kv.1 kv.2).max_cache_size := by
      rw [hmax]
      unfold opsSize at hsum ⊢
      simp [List.map_cons, List.sum_cons] at hsum
      omega
    obtain ⟨ihnext, ihmax, ihused, ihcache, ihdirty, ihdmono⟩ :=
      ih (CacheLayer.set sz c kv.1 kv.2) hsum2
    have happly : applyWrites sz (kv :: rest) c =
        applyWrites sz rest (CacheLayer.set sz c kv.1 kv.2) := rfl
    rw [happly]
    refine ⟨ihnext.trans hnext, ihmax.trans hmax, ?_, ?_, ?_, ?_⟩
    · have : opsSize sz (kv :: rest) = sz kv.2 + opsSize sz rest := by
        unfold opsSize
        simp [List.map_cons, List.sum_cons]
      omega
    · intro k
      rw [ihcache k, lastWrite_cons]
      cases lastWrite rest k with
      | some v => rfl
      | none =>
        simp only []
        rw [hcache, alookup_aset]
        by_cases h : kv.1 = k <;> simp [h]
    · intro k v hlw
      rw [lastWrite_cons] at hlw
      cases hr : lastWrite rest k with
      | some v2 => exact ihdirty k v2 hr
      | none =>
        rw [hr] at hlw
        by_cases h : kv.1 = k
        · rw [← h]
          exact ihdmono kv.1 hdirty
        · rw [if_neg h] at hlw; cases hlw
    · intro k2 hk2
      exact ihdmono k2 (hdmono k2 hk2)

/-- The flush fold leaves the cache untouched and makes next_storage answer with the
cached bytes for every processed key that is present in the cache. -/
lemma flushFold_spec {V : Type} :
    ∀ (ds : List String) (acc : CacheLayer V),
      (ds.foldl flushStep acc).cache_storage = acc.cache_storage ∧
      ∀ k, alookup (ds.foldl flushStep acc).next_storage k =
        (if k ∈ ds ∧ (alookup acc.cache_storage k).isSome
         then alookup acc.cache_storage k
         else alookup acc.next_storage k) := by
  intro ds
  induction ds with
  | nil =>
    intro acc
    refine ⟨rfl, fun k => ?_⟩
    simp
  | cons d rest ih =>
    intro acc
    rw [List.foldl_cons]
    cases hd : alookup acc.cache_storage d with
    | some vd =>
      have hstep : flushStep acc d =
          { acc with next_storage := aset acc.next_storage d vd } := by
        unfold flushStep
        rw [hd]
      rw [hstep]
      obtain ⟨ihc, ihn⟩ := ih { acc with next_storage := aset acc.next_storage d vd }
      refine ⟨ihc, fun k => ?_⟩
      rw [ihn k]
      by_cases hmem : k ∈ rest ∧ (alookup acc.cache_storage k).isSome
      · rw [if_pos ?ha, if_pos ?hb]
        case ha => exact hmem
        case hb => exact ⟨List.mem_cons_of_mem _ hmem.1, hmem.2⟩
      · rw [if_neg hmem]
        show alookup (aset acc.next_storage d vd) k = _
        rw [alookup_aset]
        by_cases hk : d = k
        · rw [if_pos hk, ← hk, hd]
          rw [if_pos ⟨List.mem_cons_self _ _, rfl⟩]
        · rw [if_neg hk, if_neg ?hne]
          case hne =>
            intro hcon
            rcases List.mem_cons.mp hcon.1 with h1 | h1
            · exact hk h1.symm
            · exact hmem ⟨h1, hcon.2⟩
    | none =>
      have hstep : flushStep acc d = acc := by
        unfold flushStep
        rw [hd]
      rw [hstep]
      obtain ⟨ihc, ihn⟩ := ih acc
      refine ⟨ihc, fun k => ?_⟩
      rw [ihn k]
      by_cases hmem : k ∈ rest ∧ (alookup acc.cache_storage k).isSome
      · rw [if_pos hmem, if_pos ⟨List.mem_cons_of_mem _ hmem.1, hmem.2⟩]
      · rw [if_neg hmem, if_neg ?hne2]
        case hne2 =>
          intro hcon
          rcases List.mem_cons.mp hcon.1 with h1 | h1
          · rw [h1] at hcon
            rw [hd] at hcon
            cases hcon.2
          · exact hmem ⟨h1, hcon.2⟩

/-- After flush(), next_storage answers every dirty cached key with the cached bytes. -/
lemma flush_next_lookup {V : Type} (c : CacheLayer V) (k : String) :
    alookup (CacheLayer.flush c).next_storage k =
      (if k ∈ c.dirty_keys ∧ (alookup c.cache_storage k).isSome
       then alookup c.cache_storage k
       else alookup c.next_storage k) := by
  unfold CacheLayer.flush
  exact (flushFold_spec c.dirty_keys c).2 k

/-- Values held by the dataset layer in the key→bytes store. -/
inductive StoredVal where
  | dsMeta (tensors : List String)
  | tMeta (meta : TensorMeta)
  | chunk (b : List Nat)
deriving DecidableEq, Repr

/-- Modelled from the spec: opening a Dataset over a store reads dataset_meta.json when
present (a freshly opened Dataset otherwise creates an empty meta with no tensors) and
len(ds) is the embedded dataset_len over the recorded tensors' meta lengths (a tensor
without a readable meta contributes length 0). -/
def reader_dataset_len (base : List (String × StoredVal)) : Nat :=
  match alookup base "dataset_meta.json" with
  | some (.dsMeta tensors) =>
    dataset_len (tensors.map (fun t =>
      match alookup base (t ++ "/tensor_meta.json") with
      | some (.tMeta m) => m.length
      | _ => 0))
  | _ => 0

/-- The writer session of test_persist_with_local: create the dataset meta, write the
sample chunks, and commit the image tensor meta last (as add_samples_to_tensor does). -/
def writerOps (n : Nat) (chunkOps : List (String × StoredVal)) :
    List (String × StoredVal) :=
  ("dataset_meta.json", .dsMeta ["image"]) :: chunkOps ++
    [("image/tensor_meta.json",
      .tMeta ⟨"float64", n, [4096, 4096], [4096, 4096], 4096⟩)]

lemma lastWrite_singleton {V : Type} (kv : String × V) (k : String) :
    lastWrite [kv] k = if kv.1 = k then some kv.2 else none := by
  rw [lastWrite_cons]
  rfl

lemma lastWrite_writerOps_ds (n : Nat) (chunkOps : List (String × StoredVal))
    (hkeys : ∀ kv ∈ chunkOps, kv.1 ≠ "dataset_meta.json" ∧
      kv.1 ≠ "image/tensor_meta.json") :
    lastWrite (writerOps n chunkOps) "dataset_meta.json" =
      some (.dsMeta ["image"]) := by
  unfold writerOps
  rw [List.cons_append, lastWrite_cons, lastWrite_append, lastWrite_singleton,
    lastWrite_none chunkOps _ (fun kv h => (hkeys kv h).1)]
  rfl

lemma lastWrite_writerOps_tmeta (n : Nat) (chunkOps : List (String × StoredVal)) :
    lastWrite (writerOps n chunkOps) "image/tensor_meta.json" =
      some (.tMeta ⟨"float64", n, [4096, 4096], [4096, 4096], 4096⟩) := by
  unfold writerOps
  rw [List.cons_append, lastWrite_cons, lastWrite_append, lastWrite_singleton]
  rfl

lemma lastWrite_writerOps_chunk (n : Nat) (chunkOps : List (String × StoredVal))
    (k : String) (v : StoredVal)
    (hkeys : ∀ kv ∈ chunkOps, kv.1 ≠ "dataset_meta.json" ∧
      kv.1 ≠ "image/tensor_meta.json")
    (h : lastWrite chunkOps k = some v) :
    lastWrite (writerOps n chunkOps) k = some v := by
  obtain ⟨kv0, hmem0, hk0⟩ := lastWrite_mem chunkOps k v h
  have hkt : ¬ ("image/tensor_meta.json" : String) = k := by
    intro hc
    exact (hkeys kv0 hmem0).2 (hk0.trans hc.symm)
  unfold writerOps
  rw [List.cons_append, lastWrite_cons, lastWrite_append, lastWrite_singleton,
    if_neg hkt, h]

/-- Claim C7: two Dataset instances over one backing store.  A writer whose session
(create dataset meta, write chunks, commit tensor meta) fits inside its cache budget
leaves the backing store untouched until flush, so a second Dataset freshly opened on
the store sees length 0 when nothing was flushed; a reader opened after flush() sees
the tensor meta length n and every written chunk with its final bytes. -/
theorem C7_flush_visibility (sz : StoredVal → Nat) (n maxSize : Nat)
    (chunkOps : List (String × StoredVal))
    (hsum : opsSize sz (writerOps n chunkOps) ≤ maxSize)
    (hkeys : ∀ kv ∈ chunkOps, kv.1 ≠ "dataset_meta.json" ∧
      kv.1 ≠ "image/tensor_meta.json") :
    (applyWrites sz (writerOps n chunkOps) (emptyCache StoredVal maxSize)).next_storage
        = [] ∧
    reader_dataset_len
        (applyWrites sz (writerOps n chunkOps)
          (emptyCache StoredVal maxSize)).next_storage = 0 ∧
    reader_dataset_len
        ((applyWrites sz (writerOps n chunkOps)
          (emptyCache StoredVal maxSize)).flush).next_storage = n ∧
    (∀ k v, lastWrite chunkOps k = some v →
      alookup ((applyWrites sz (writerOps n chunkOps)
        (emptyCache StoredVal maxSize)).flush).next_storage k = some v) := by
  obtain ⟨hnext, hmax, hused, hcache, hdirty, hdmono⟩ :=
    applyWrites_no_evict sz (writerOps n chunkOps) (emptyCache StoredVal maxSize)
      (by show 0 + opsSize sz (writerOps n chunkOps) ≤ maxSize; omega)
  have hflush : ∀ k v,
      lastWrite (writerOps n chunkOps) k = some v →
      alookup ((applyWrites sz (writerOps n chunkOps)
        (emptyCache StoredVal maxSize)).flush).next_storage k = some v := by
    intro k v hlw
    rw [flush_next_lookup]
    have hc : alookup (applyWrites sz (writerOps n chunkOps)
        (emptyCache StoredVal maxSize)).cache_storage k = some v := by
      rw [hcache k, hlw]
    rw [if_pos ⟨hdirty k v hlw, by rw [hc]; rfl⟩, hc]
  refine ⟨hnext, ?_, ?_, ?_⟩
  · rw [hnext]
    rfl
  · have hds := hflush _ _ (lastWrite_writerOps_ds n chunkOps hkeys)
    have htm := hflush _ _ (lastWrite_writerOps_tmeta n chunkOps)
    unfold reader_dataset_len
    rw [hds]
    show dataset_len (["image"].map (fun t =>
      match alookup ((applyWrites sz (writerOps n chunkOps)
        (emptyCache StoredVal maxSize)).flush).next_storage
          (t ++ "/tensor_meta.json") with
      | some (.tMeta m) => m.length
      | _ => 0)) = n
    rw [List.map_singleton]
    have hkeyeq : ("image" ++ "/tensor_meta.json" : String) = "image/tensor_meta.json" :=
      rfl
    rw [hkeyeq, htm]
    rfl
  · intro k v h
    exact hflush k v (lastWrite_writerOps_chunk n chunkOps k v hkeys h)

/-- Witness for C7 with a one-chunk session: n = 4 samples, a single chunk write, a
100-byte budget with unit-size values. -/
theorem C7_flush_visibility_witness :
    (applyWrites (fun _ => 1)
        (writerOps 4 [("image/chunks/ab", .chunk [1, 2, 3])])
        (emptyCache StoredVal 100)).next_storage = [] ∧
    reader_dataset_len
        (applyWrites (fun _ => 1)
          (writerOps 4 [("image/chunks/ab", .chunk [1, 2, 3])])
          (emptyCache StoredVal 100)).next_storage = 0 ∧
    reader_dataset_len
        ((applyWrites (fun _ => 1)
          (writerOps 4 [("image/chunks/ab", .chunk [1, 2, 3])])
          (emptyCache StoredVal 100)).flush).next_storage = 4 ∧
    (∀ k v, lastWrite [("image/chunks/ab", StoredVal.chunk [1, 2, 3])] k = some v →
      alookup ((applyWrites (fun _ => 1)
        (writerOps 4 [("image/chunks/ab", .chunk [1, 2, 3])])
        (emptyCache StoredVal 100)).flush).next_storage k = some v) :=
  C7_flush_visibility (fun _ => 1) 4 100 [("image/chunks/ab", .chunk [1, 2, 3])]
    (by decide) (by decide)

/-!
Part 4: correctness of the chunked write/read round trip (claim C1).
-/

lemma getD_append_left {α : Type} (l1 l2 : List α) (i : Nat) (d : α)
    (h : i < l1.length) : (l1 ++ l2).getD i d = l1.getD i d := by
  rw [List.getD_eq_getElem _ _ (by rw [List.length_append]; omega),
    List.getD_eq_getElem _ _ h]
  exact List.getElem_append_left h

lemma getD_append_right_my {α : Type} (l1 l2 : List α) (i : Nat) (d : α)
    (h : l1.length ≤ i) : (l1 ++ l2).getD i d = l2.getD (i - l1.length) d := by
  induction l1 generalizing i with
  | nil => simp
  | cons a t ih =>
    cases i with
    | zero => simp at h
    | succ i2 =>
      show (t ++ l2).getD i2 d = _
      rw [ih i2 (by simpa using h)]
      congr 1
      simp only [List.length_cons]
      omega

lemma getD_dropLast {α : Type} (l : List α) (i : Nat) (d : α)
    (h : i < l.length - 1) : l.dropLast.getD i d = l.getD i d := by
  rw [List.getD_eq_getElem _ _ (by simp; omega), List.getD_eq_getElem _ _ (by omega)]
  exact List.getElem_dropLast l i _

lemma getD_getLast {α : Type} (l : List α) (d : α) (h : l ≠ []) :
    l.getD (l.length - 1) d = l.getLastD d := by
  rw [List.getLastD_eq_getLast?, List.getLast?_eq_getElem?, List.getD_eq_getElem?_getD]

lemma list_eq_map_range_getD {α : Type} (l : List α) (d : α) :
    (List.range l.length).map (fun j => l.getD j d) = l := by
  induction l with
  | nil => rfl
  | cons a t ih =>
    show (List.range (t.length + 1)).map _ = _
    rw [List.range_succ_eq_map, List.map_cons, List.map_map]
    refine congrArg₂ _ rfl ?_
    calc (List.range t.length).map ((fun j => (a :: t).getD j d) ∘ Nat.succ)
        = (List.range t.length).map (fun j => t.getD j d) := by
          refine List.map_congr_left fun j hj => ?_
          rfl
      _ = t := ih

lemma flatten_dropLast_getLastD {α : Type} (l : List (List α)) (h : l ≠ []) :
    l.dropLast.flatten ++ l.getLastD [] = l.flatten := by
  conv_rhs => rw [← List.dropLast_append_getLast h]
  rw [List.flatten_append]
  congr 1
  rw [List.getLastD_eq_getLast?, List.getLast?_eq_getLast _ h]
  simp

lemma splitIntoChunks_ne_nil (b : List Nat) (cs : Nat) : splitIntoChunks b cs ≠ [] := by
  rw [splitIntoChunks]
  by_cases h0 : cs = 0
  · simp [h0]
  · rw [if_neg h0]
    by_cases h1 : b.length ≤ cs
    · rw [dif_pos h1]
      simp
    · rw [dif_neg h1]
      simp

lemma splitIntoChunks_flatten (b : List Nat) (cs : Nat) (hcs : 0 < cs) :
    (splitIntoChunks b cs).flatten = b := by
  suffices hgen : ∀ n (b2 : List Nat), b2.length = n → (splitIntoChunks b2 cs).flatten = b2
    from hgen b.length b rfl
  intro n
  induction n using Nat.strong_induction_on with
  | _ n ih =>
    intro b2 hb2
    rw [splitIntoChunks, if_neg (by omega)]
    by_cases h1 : b2.length ≤ cs
    · rw [dif_pos h1]
      simp
    · rw [dif_neg h1]
      rw [List.flatten_cons, ih ((b2.drop cs).length) (by simp; omega) (b2.drop cs) rfl]
      exact List.take_append_drop cs b2

lemma splitIntoChunks_le (b : List Nat) (cs : Nat) (hcs : 0 < cs) :
    ∀ c ∈ splitIntoChunks b cs, c.length ≤ cs := by
  suffices hgen : ∀ n (b2 : List Nat), b2.length = n → ∀ c ∈ splitIntoChunks b2 cs, c.length ≤ cs
    from hgen b.length b rfl
  intro n
  induction n using Nat.strong_induction_on with
  | _ n ih =>
    intro b2 hb2
    rw [splitIntoChunks, if_neg (by omega)]
    by_cases h1 : b2.length ≤ cs
    · rw [dif_pos h1]
      intro c hc
      rw [List.mem_singleton] at hc
      rw [hc]
      exact h1
    · rw [dif_neg h1]
      intro c hc
      rcases List.mem_cons.mp hc with rfl | hmem
      · rw [List.length_take]
        omega
      · exact ih ((b2.drop cs).length) (by simp; omega) (b2.drop cs) rfl c hmem

lemma splitIntoChunks_dropLast_full (b : List Nat) (cs : Nat) (hcs : 0 < cs) :
    ∀ c ∈ (splitIntoChunks b cs).dropLast, c.length = cs := by
  suffices hgen : ∀ n (b2 : List Nat), b2.length = n →
      ∀ c ∈ (splitIntoChunks b2 cs).dropLast, c.length = cs
    from hgen b.length b rfl
  intro n
  induction n using Nat.strong_induction_on with
  | _ n ih =>
    intro b2 hb2
    rw [splitIntoChunks, if_neg (by omega)]
    by_cases h1 : b2.length ≤ cs
    · rw [dif_pos h1]
      intro c hc
      cases hc
    · rw [dif_neg h1]
      have hrest := splitIntoChunks_ne_nil (b2.drop cs) cs
      intro c hc
      rw [List.dropLast_cons_of_ne_nil hrest] at hc
      rcases List.mem_cons.mp hc with rfl | hmem
      · rw [List.length_take]
        omega
      · exact ih ((b2.drop cs).length) (by simp; omega) (b2.drop cs) rfl c hmem

lemma splitIntoChunks_getLastD_le (b : List Nat) (cs : Nat) (hcs : 0 < cs) :
    ((splitIntoChunks b cs).getLastD []).length ≤ cs := by
  have hne := splitIntoChunks_ne_nil b cs
  have hmem : (splitIntoChunks b cs).getLastD [] ∈ splitIntoChunks b cs := by
    rw [List.getLastD_eq_getLast?, List.getLast?_eq_getLast _ hne]
    simp only [Option.getD_some]
    exact List.getLast_mem hne
  exact splitIntoChunks_le b cs hcs _ hmem

/-- The default index entry used with getD. -/
def defaultEntry : IndexEntry := ⟨0, 0, 0, 0, []⟩

/-- A well-placed index entry whose recorded byte region reads back b: the region lies
inside the chunk list, start and end offsets are within their chunks, every chunk of
the span except the terminal one is full (cs bytes), and assembly yields b. -/
structure EntryGood (cs : Nat) (chunks : List (List Nat)) (e : IndexEntry)
    (b : List Nat) : Prop where
  start_le : e.start_chunk ≤ e.end_chunk
  end_lt : e.end_chunk < chunks.length
  sb_le : e.start_byte ≤ (chunks.getD e.start_chunk []).length
  eb_le : e.end_byte ≤ (chunks.getD e.end_chunk []).length
  full : ∀ i, e.start_chunk ≤ i → i < e.end_chunk → (chunks.getD i []).length = cs
  reads : read_entry_bytes chunks e = b

/-- Chunk growth: existing chunks only gain bytes at their end (each old chunk is a
prefix of its successor) and new chunks are appended after them. -/
def ChunksGrow (a b : List (List Nat)) : Prop :=
  a.length ≤ b.length ∧
    ∀ i, i < a.length → (b.getD i []).take (a.getD i []).length = a.getD i []

lemma getD_mem {α : Type} (l : List α) (i : Nat) (d : α) (h : i < l.length) :
    l.getD i d ∈ l := by
  rw [List.getD_eq_getElem _ _ h]
  exact List.getElem_mem _

lemma grow_len_le {a b : List (List Nat)} (hg : ChunksGrow a b) (i : Nat)
    (h : i < a.length) : (a.getD i []).length ≤ (b.getD i []).length := by
  have hlen := congrArg List.length (hg.2 i h)
  rw [List.length_take] at hlen
  omega

lemma grow_full_eq {cs : Nat} {a b : List (List Nat)} (hg : ChunksGrow a b)
    (hble : ∀ c ∈ b, c.length ≤ cs) (i : Nat) (hi : i < a.length)
    (hfull : (a.getD i []).length = cs) : b.getD i [] = a.getD i [] := by
  have hab : a.length ≤ b.length := hg.1
  have h1 := hg.2 i hi
  have h2 : (b.getD i []).length ≤ cs :=
    hble _ (getD_mem b i [] (by omega))
  rw [hfull] at h1
  rw [← h1]
  exact (List.take_of_length_le h2).symm

lemma window_stable (x : List Nat) (L sb n : Nat) (hle : sb + n ≤ L) :
    ((x.take L).drop sb).take n = (x.drop sb).take n := by
  rw [List.drop_take, List.take_take]
  congr 1
  omega

/-- Chunk growth preserves well-placed entries and their reads. -/
lemma entryGood_mono (cs : Nat) (a b : List (List Nat)) (hg : ChunksGrow a b)
    (hble : ∀ c ∈ b, c.length ≤ cs) (e : IndexEntry) (bytes : List Nat)
    (hgood : EntryGood cs a e bytes) : EntryGood cs b e bytes := by
  obtain ⟨hse, hel, hsb, heb, hfull, hreads⟩ := hgood
  have hab : a.length ≤ b.length := hg.1
  have hstartlt : e.start_chunk < a.length := by omega
  refine ⟨hse, by omega, ?_, ?_, ?_, ?_⟩
  · exact le_trans hsb (grow_len_le hg _ hstartlt)
  · exact le_trans heb (grow_len_le hg _ hel)
  · intro i h1 h2
    rw [grow_full_eq hg hble i (by omega) (hfull i h1 h2)]
    exact hfull i h1 h2
  · rw [← hreads]
    unfold read_entry_bytes
    by_cases hsingle : e.start_chunk = e.end_chunk
    · rw [if_pos hsingle, if_pos hsingle]
      have hpre := hg.2 e.start_chunk hstartlt
      have heb2 : e.end_byte ≤ (a.getD e.start_chunk []).length := by
        rw [hsingle]
        exact heb
      conv_rhs => rw [← hpre]
      rw [window_stable]
      omega
    · rw [if_neg hsingle, if_neg hsingle]
      have hstarteq : b.getD e.start_chunk [] = a.getD e.start_chunk [] :=
        grow_full_eq hg hble _ hstartlt (hfull _ (le_refl _) (by omega))
      have hmid : (List.range' (e.start_chunk + 1) (e.end_chunk - e.start_chunk - 1)).map
            (fun i => b.getD i []) =
          (List.range' (e.start_chunk + 1) (e.end_chunk - e.start_chunk - 1)).map
            (fun i => a.getD i []) := by
        refine List.map_congr_left fun i hi => ?_
        rw [List.mem_range'] at hi
        obtain ⟨j, hj, rfl⟩ := hi
        exact grow_full_eq hg hble _ (by omega)
          (hfull _ (by omega) (by omega))
      have hlast : (b.getD e.end_chunk []).take e.end_byte =
          (a.getD e.end_chunk []).take e.end_byte := by
        have hpre := hg.2 e.end_chunk hel
        conv_rhs => rw [← hpre]
        rw [List.take_take]
        congr 1
        omega
      rw [hstarteq, hmid, hlast]

/-- Global well-formedness of a tensor state against the history of written samples:
all chunks except the final one are full, none exceeds the chunk size, and the index
map records one good entry per history item together with its shape. -/
structure TensorGood (cs : Nat) (st : TensorState) (hist : List (List Nat × List Nat)) :
    Prop where
  full_init : ∀ c ∈ st.chunks.dropLast, c.length = cs
  all_le : ∀ c ∈ st.chunks, c.length ≤ cs
  len_eq : st.index_map.length = hist.length
  entries : ∀ j, j < hist.length →
    EntryGood cs st.chunks (st.index_map.getD j defaultEntry) (hist.getD j ([], [])).1 ∧
      (st.index_map.getD j defaultEntry).shape = (hist.getD j ([], [])).2

lemma getLastD_irrel {α : Type} (l : List α) (d1 d2 : α) (h : l ≠ []) :
    l.getLastD d1 = l.getLastD d2 := by
  rw [List.getLastD_eq_getLast?, List.getLastD_eq_getLast?,
    List.getLast?_eq_getLast _ h]
  rfl

lemma getLastD_cons_of_ne_nil {α : Type} (a : α) (l : List α) (d : α) (h : l ≠ []) :
    (a :: l).getLastD d = l.getLastD d := by
  rw [List.getLastD_eq_getLast?, List.getLastD_eq_getLast?, List.getLast?_cons,
    List.getLast?_eq_getLast _ h]
  rfl

/-- Reading the entry of a sample freshly written into new chunks NC appended after the
existing chunks A — byte 0 of chunk A.length through the full final chunk of NC —
reassembles exactly the concatenation of NC. -/
lemma read_fresh_segment (A NC : List (List Nat)) (hne : NC ≠ []) (shape : List Nat) :
    read_entry_bytes (A ++ NC)
      ⟨A.length, A.length + NC.length - 1, 0, (NC.getLastD []).length, shape⟩ =
      NC.flatten := by
  cases NC with
  | nil => cases hne rfl
  | cons c0 rest =>
    cases hr : rest with
    | nil =>
      simp only [read_entry_bytes]
      rw [if_pos (by simp)]
      rw [getD_append_right_my A [c0] A.length [] (le_refl _), Nat.sub_self]
      show (c0.drop 0).take ((([c0] : List (List Nat)).getLastD []).length - 0) =
        ([c0] : List (List Nat)).flatten
      rw [List.drop_zero, Nat.sub_zero]
      show c0.take c0.length = _
      rw [List.take_length]
      simp
    | cons c1 rest2 =>
      rw [← hr]
      have hrne : rest ≠ [] := by rw [hr]; simp
      have hKge : 2 ≤ (c0 :: rest).length := by
        rw [hr]
        simp
      simp only [read_entry_bytes]
      rw [if_neg (by omega)]
      have hfirst : (A ++ c0 :: rest).getD A.length [] = c0 := by
        rw [getD_append_right_my A _ A.length [] (le_refl _), Nat.sub_self]
        rfl
      have hlastidx : (A ++ c0 :: rest).getD (A.length + (c0 :: rest).length - 1) [] =
          (c0 :: rest).getLastD [] := by
        rw [getD_append_right_my A _ _ [] (by simp only [List.length_cons]; omega)]
        have hi2 : A.length + (c0 :: rest).length - 1 - A.length =
            (c0 :: rest).length - 1 := by
          omega
        rw [hi2, getD_getLast _ _ (by simp)]
      have hmid : ((List.range' (A.length + 1)
            (A.length + (c0 :: rest).length - 1 - A.length - 1)).map
          (fun i => (A ++ c0 :: rest).getD i [])).flatten = rest.dropLast.flatten := by
        have hcount : A.length + (c0 :: rest).length - 1 - A.length - 1 =
            rest.length - 1 := by
          simp only [List.length_cons]
          omega
        rw [hcount, List.range'_eq_map_range, List.map_map]
        congr 1
        have hlen : rest.length - 1 = rest.dropLast.length := by simp
        rw [hlen]
        conv_rhs => rw [← list_eq_map_range_getD rest.dropLast []]
        refine List.map_congr_left fun j hj => ?_
        rw [List.mem_range] at hj
        simp only [Function.comp_apply]
        rw [getD_append_right_my A _ _ [] (by omega)]
        have hidx : A.length + 1 + j - A.length = j + 1 := by omega
        rw [hidx]
        show rest.getD j [] = _
        rw [getD_dropLast rest j []
          (by simp only [List.length_dropLast] at hj; omega)]
      rw [hfirst, hlastidx, hmid, List.drop_zero, List.take_length,
        getLastD_cons_of_ne_nil c0 rest [] hrne, List.flatten_cons,
        List.append_assoc, flatten_dropLast_getLastD rest hrne]

/-- Reading the entry of a sample that starts at byte `used` of the final chunk of A
(just filled to capacity with the sample's leading bytes) and spills into the fresh
chunks NC reassembles the tail of that chunk followed by the concatenation of NC. -/
lemma read_spill_segment (A : List (List Nat)) (hAne : A ≠ []) (NC : List (List Nat))
    (hne : NC ≠ []) (used : Nat) (shape : List Nat) :
    read_entry_bytes (A ++ NC)
      ⟨A.length - 1, A.length - 1 + NC.length, used, (NC.getLastD []).length, shape⟩ =
      (A.getLastD []).drop used ++ NC.flatten := by
  have hApos : 0 < A.length := List.length_pos.mpr hAne
  have hNpos : 0 < NC.length := List.length_pos.mpr hne
  simp only [read_entry_bytes]
  rw [if_neg (by omega)]
  have hfirst : (A ++ NC).getD (A.length - 1) [] = A.getLastD [] := by
    rw [getD_append_left A NC _ [] (by omega), getD_getLast A [] hAne]
  have hlastidx : (A ++ NC).getD (A.length - 1 + NC.length) [] = NC.getLastD [] := by
    rw [getD_append_right_my A NC _ [] (by omega)]
    have hi2 : A.length - 1 + NC.length - A.length = NC.length - 1 := by omega
    rw [hi2, getD_getLast NC [] hne]
  have hmid : ((List.range' (A.length - 1 + 1)
        (A.length - 1 + NC.length - (A.length - 1) - 1)).map
      (fun i => (A ++ NC).getD i [])).flatten = NC.dropLast.flatten := by
    have hcount : A.length - 1 + NC.length - (A.length - 1) - 1 = NC.length - 1 := by
      omega
    have hstart : A.length - 1 + 1 = A.length := by omega
    rw [hcount, hstart, List.range'_eq_map_range, List.map_map]
    congr 1
    have hlen : NC.length - 1 = NC.dropLast.length := by simp
    rw [hlen]
    conv_rhs => rw [← list_eq_map_range_getD NC.dropLast []]
    refine List.map_congr_left fun j hj => ?_
    rw [List.mem_range] at hj
    simp only [Function.comp_apply]
    rw [getD_append_right_my A _ _ [] (by omega)]
    have hidx : A.length + j - A.length = j := by omega
    rw [hidx]
    rw [getD_dropLast NC j [] (by simp only [List.length_dropLast] at hj; omega)]
  rw [hfirst, hlastidx, hmid, List.take_length, List.append_assoc,
    flatten_dropLast_getLastD NC hne]

/-- Reading the entry of a sample appended inside the remaining capacity of the final
chunk: the byte window [used, used + len b) of that chunk gives back b. -/
lemma read_fits_segment (D : List (List Nat)) (last b shape : List Nat) :
    read_entry_bytes (D ++ [last ++ b])
      ⟨D.length, D.length, last.length, last.length + b.length, shape⟩ = b := by
  simp only [read_entry_bytes]
  rw [if_pos trivial]
  rw [getD_append_right_my D _ _ [] (le_refl _), Nat.sub_self]
  show ((last ++ b).drop last.length).take (last.length + b.length - last.length) = b
  rw [List.drop_left, Nat.add_sub_cancel_left, List.take_length]

lemma grow_refl (a : List (List Nat)) : ChunksGrow a a :=
  ⟨le_refl _, fun i hi => List.take_length _⟩

lemma grow_trans {a b c : List (List Nat)} (h1 : ChunksGrow a b) (h2 : ChunksGrow b c) :
    ChunksGrow a c := by
  refine ⟨le_trans h1.1 h2.1, fun i hi => ?_⟩
  have hb := h1.2 i hi
  have hc := h2.2 i (by have := h1.1; omega)
  have hlen : (a.getD i []).length ≤ (b.getD i []).length := grow_len_le h1 i hi
  calc (c.getD i []).take (a.getD i []).length
      = ((c.getD i []).take (b.getD i []).length).take (a.getD i []).length := by
        rw [List.take_take]
        congr 1
        omega
    _ = (b.getD i []).take (a.getD i []).length := by rw [hc]
    _ = a.getD i [] := hb

lemma grow_append (C NC : List (List Nat)) : ChunksGrow C (C ++ NC) := by
  refine ⟨by simp, fun i hi => ?_⟩
  rw [getD_append_left C NC i [] hi, List.take_length]

lemma grow_extend_last (D : List (List Nat)) (last b : List Nat) :
    ChunksGrow (D ++ [last]) (D ++ [last ++ b]) := by
  refine ⟨by simp, fun i hi => ?_⟩
  rw [List.length_append, List.length_singleton] at hi
  by_cases hlt : i < D.length
  · rw [getD_append_left D _ i [] hlt, getD_append_left D _ i [] hlt, List.take_length]
  · have hieq : i = D.length := by omega
    subst hieq
    rw [getD_append_right_my D _ _ [] (le_refl _), Nat.sub_self,
      getD_append_right_my D _ _ [] (le_refl _), Nat.sub_self]
    show (last ++ b).take (([last] : List (List Nat)).getD 0 []).length = _
    show (last ++ b).take last.length = last
    exact List.take_left last b

/-- Appending one good entry for one new sample to a good tensor state keeps it good. -/
lemma tensorGood_extend (cs : Nat) (st st2 : TensorState)
    (hist : List (List Nat × List Nat)) (e : IndexEntry) (b shape : List Nat)
    (hgood : TensorGood cs st hist)
    (him : st2.index_map = st.index_map ++ [e])
    (hgrow : ChunksGrow st.chunks st2.chunks)
    (hfull2 : ∀ c ∈ st2.chunks.dropLast, c.length = cs)
    (hle2 : ∀ c ∈ st2.chunks, c.length ≤ cs)
    (hnew : EntryGood cs st2.chunks e b)
    (hshape : e.shape = shape) :
    TensorGood cs st2 (hist ++ [(b, shape)]) := by
  refine ⟨hfull2, hle2, ?_, ?_⟩
  · rw [him, List.length_append, List.length_append, hgood.len_eq]
    rfl
  · intro j hj
    rw [List.length_append, List.length_singleton] at hj
    by_cases hlt : j < hist.length
    · rw [him,
        getD_append_left st.index_map [e] j defaultEntry (by rw [hgood.len_eq]; exact hlt),
        getD_append_left hist _ j _ hlt]
      obtain ⟨hg, hs⟩ := hgood.entries j hlt
      exact ⟨entryGood_mono cs st.chunks st2.chunks hgrow hle2 _ _ hg, hs⟩
    · have hjeq : j = hist.length := by omega
      subst hjeq
      rw [him,
        getD_append_right_my st.index_map [e] _ _ (le_of_eq hgood.len_eq),
        getD_append_right_my hist _ _ _ (le_refl _), Nat.sub_self, hgood.len_eq,
        Nat.sub_self]
      exact ⟨hnew, hshape⟩

lemma write_bytes_eq_none (b : List Nat) (cs : Nat) (shape : List Nat)
    (st : TensorState) (h : st.chunks.getLast? = none) :
    write_bytes b cs shape st =
      { st with
        chunks := splitIntoChunks b cs
        index_map := st.index_map ++
          [⟨0, (splitIntoChunks b cs).length - 1, 0,
            ((splitIntoChunks b cs).getLastD []).length, shape⟩] } := by
  unfold write_bytes
  rw [h]

lemma write_bytes_eq_fits (b : List Nat) (cs : Nat) (shape : List Nat)
    (st : TensorState) (last : List Nat) (h : st.chunks.getLast? = some last)
    (hfits : last.length < cs ∧ b.length ≤ cs - last.length) :
    write_bytes b cs shape st =
      { st with
        chunks := st.chunks.dropLast ++ [last ++ b]
        index_map := st.index_map ++
          [⟨st.chunks.length - 1, st.chunks.length - 1, last.length,
            last.length + b.length, shape⟩] } := by
  unfold write_bytes
  rw [h]
  simp only [if_pos hfits]

lemma write_bytes_eq_spill (b : List Nat) (cs : Nat) (shape : List Nat)
    (st : TensorState) (last : List Nat) (h : st.chunks.getLast? = some last)
    (hnofit : ¬ (last.length < cs ∧ b.length ≤ cs - last.length))
    (hopen : last.length < cs) :
    write_bytes b cs shape st =
      { st with
        chunks := st.chunks.dropLast ++
          [last ++ b.take (cs - last.length)] ++
          splitIntoChunks (b.drop (cs - last.length)) cs
        index_map := st.index_map ++
          [⟨st.chunks.length - 1,
            st.chunks.length - 1 +
              (splitIntoChunks (b.drop (cs - last.length)) cs).length,
            last.length,
            ((splitIntoChunks (b.drop (cs - last.length)) cs).getLastD []).length,
            shape⟩] } := by
  unfold write_bytes
  rw [h]
  simp only [if_neg hnofit, if_pos hopen]

lemma write_bytes_eq_full (b : List Nat) (cs : Nat) (shape : List Nat)
    (st : TensorState) (last : List Nat) (h : st.chunks.getLast? = some last)
    (hnofit : ¬ (last.length < cs ∧ b.length ≤ cs - last.length))
    (hfull : ¬ last.length < cs) :
    write_bytes b cs shape st =
      { st with
        chunks := st.chunks ++ splitIntoChunks b cs
        index_map := st.index_map ++
          [⟨st.chunks.length,
            st.chunks.length + (splitIntoChunks b cs).length - 1, 0,
            ((splitIntoChunks b cs).getLastD []).length, shape⟩] } := by
  unfold write_bytes
  rw [h]
  simp only [if_neg hnofit, if_neg hfull]

/-- The fresh-chunks branch: when every existing chunk is full (or there are none), the
sample goes into freshly split chunks appended at the end, and the state stays good. -/
lemma fresh_branch_good (cs : Nat) (hcs : 0 < cs) (st : TensorState)
    (hist : List (List Nat × List Nat)) (b shape : List Nat)
    (hgood : TensorGood cs st hist)
    (hallfull : ∀ c ∈ st.chunks, c.length = cs) :
    TensorGood cs
      { st with
        chunks := st.chunks ++ splitIntoChunks b cs
        index_map := st.index_map ++
          [⟨st.chunks.length,
            st.chunks.length + (splitIntoChunks b cs).length - 1, 0,
            ((splitIntoChunks b cs).getLastD []).length, shape⟩] }
      (hist ++ [(b, shape)]) := by
  have hne := splitIntoChunks_ne_nil b cs
  have hKpos : 0 < (splitIntoChunks b cs).length := List.length_pos.mpr hne
  refine tensorGood_extend cs st _ hist _ b shape hgood rfl (grow_append _ _) ?_ ?_ ?_ rfl
  · show ∀ c ∈ (st.chunks ++ splitIntoChunks b cs).dropLast, c.length = cs
    rw [List.dropLast_append_of_ne_nil st.chunks hne]
    intro c hc
    rcases List.mem_append.mp hc with h1 | h2
    · exact hallfull c h1
    · exact splitIntoChunks_dropLast_full b cs hcs c h2
  · show ∀ c ∈ st.chunks ++ splitIntoChunks b cs, c.length ≤ cs
    intro c hc
    rcases List.mem_append.mp hc with h1 | h2
    · exact le_of_eq (hallfull c h1)
    · exact splitIntoChunks_le b cs hcs c h2
  · have heb : (st.chunks ++ splitIntoChunks b cs).getD
        (st.chunks.length + (splitIntoChunks b cs).length - 1) [] =
        (splitIntoChunks b cs).getLastD [] := by
      rw [getD_append_right_my _ _ _ [] (by omega)]
      have hi2 : st.chunks.length + (splitIntoChunks b cs).length - 1 -
          st.chunks.length = (splitIntoChunks b cs).length - 1 := by omega
      rw [hi2, getD_getLast _ _ hne]
    refine ⟨?_, ?_, Nat.zero_le _, ?_, ?_, ?_⟩
    · show st.chunks.length ≤ st.chunks.length + (splitIntoChunks b cs).length - 1
      omega
    · show st.chunks.length + (splitIntoChunks b cs).length - 1 <
        (st.chunks ++ splitIntoChunks b cs).length
      rw [List.length_append]
      omega
    · show ((splitIntoChunks b cs).getLastD []).length ≤
        ((st.chunks ++ splitIntoChunks b cs).getD
          (st.chunks.length + (splitIntoChunks b cs).length - 1) []).length
      rw [heb]
    · intro i h1 h2
      have h1b : st.chunks.length ≤ i := h1
      have h2b : i < st.chunks.length + (splitIntoChunks b cs).length - 1 := h2
      show ((st.chunks ++ splitIntoChunks b cs).getD i []).length = cs
      rw [getD_append_right_my _ _ _ [] (by omega)]
      have hlt : i - st.chunks.length < (splitIntoChunks b cs).dropLast.length := by
        rw [List.length_dropLast]
        omega
      rw [← getD_dropLast _ _ [] (by rw [List.length_dropLast] at hlt; omega)]
      exact splitIntoChunks_dropLast_full b cs hcs _ (getD_mem _ _ [] hlt)
    · show read_entry_bytes (st.chunks ++ splitIntoChunks b cs)
        ⟨st.chunks.length, st.chunks.length + (splitIntoChunks b cs).length - 1, 0,
          ((splitIntoChunks b cs).getLastD []).length, shape⟩ = b
      rw [read_fresh_segment st.chunks (splitIntoChunks b cs) hne shape,
        splitIntoChunks_flatten b cs hcs]

/-- The in-capacity branch: a sample appended inside the final chunk's remaining
capacity keeps the state good. -/
lemma fits_branch_good (cs : Nat) (hcs : 0 < cs) (st : TensorState)
    (hist : List (List Nat × List Nat)) (b shape last : List Nat)
    (hgood : TensorGood cs st hist)
    (hl : st.chunks.getLast? = some last)
    (hopen : last.length < cs) (hfit : b.length ≤ cs - last.length) :
    TensorGood cs
      { st with
        chunks := st.chunks.dropLast ++ [last ++ b]
        index_map := st.index_map ++
          [⟨st.chunks.length - 1, st.chunks.length - 1, last.length,
            last.length + b.length, shape⟩] }
      (hist ++ [(b, shape)]) := by
  have hcne : st.chunks ≠ [] := by
    intro hc
    rw [hc] at hl
    cases hl
  have hdec : st.chunks.dropLast ++ [last] = st.chunks :=
    List.dropLast_append_getLast? last hl
  have hDlen : st.chunks.dropLast.length = st.chunks.length - 1 := by simp
  have hpos : 0 < st.chunks.length := List.length_pos.mpr hcne
  have hgetD : (st.chunks.dropLast ++ [last ++ b]).getD (st.chunks.length - 1) [] =
      last ++ b := by
    rw [getD_append_right_my _ _ _ [] (by omega), hDlen, Nat.sub_self]
    rfl
  refine tensorGood_extend cs st _ hist _ b shape hgood rfl ?_ ?_ ?_ ?_ rfl
  · have hgrow := grow_extend_last st.chunks.dropLast last b
    rw [hdec] at hgrow
    exact hgrow
  · show ∀ c ∈ (st.chunks.dropLast ++ [last ++ b]).dropLast, c.length = cs
    rw [List.dropLast_concat]
    exact hgood.full_init
  · show ∀ c ∈ st.chunks.dropLast ++ [last ++ b], c.length ≤ cs
    intro c hc
    rcases List.mem_append.mp hc with h1 | h2
    · exact hgood.all_le c (List.dropLast_sublist _ |>.subset h1)
    · rw [List.mem_singleton] at h2
      rw [h2, List.length_append]
      omega
  · refine ⟨le_refl _, ?_, ?_, ?_, ?_, ?_⟩
    · show st.chunks.length - 1 < (st.chunks.dropLast ++ [last ++ b]).length
      rw [List.length_append, hDlen, List.length_singleton]
      omega
    · show last.length ≤
        ((st.chunks.dropLast ++ [last ++ b]).getD (st.chunks.length - 1) []).length
      rw [hgetD, List.length_append]
      omega
    · show last.length + b.length ≤
        ((st.chunks.dropLast ++ [last ++ b]).getD (st.chunks.length - 1) []).length
      rw [hgetD, List.length_append]
    · intro i h1 h2
      have h1b : st.chunks.length - 1 ≤ i := h1
      have h2b : i < st.chunks.length - 1 := h2
      omega
    · show read_entry_bytes (st.chunks.dropLast ++ [last ++ b])
        ⟨st.chunks.length - 1, st.chunks.length - 1, last.length,
          last.length + b.length, shape⟩ = b
      have hread := read_fits_segment st.chunks.dropLast last b shape
      rw [hDlen] at hread
      exact hread

/-- The spill branch: a sample that overflows the final open chunk fills it to capacity
and continues into freshly split chunks; the state stays good. -/
lemma spill_branch_good (cs : Nat) (hcs : 0 < cs) (st : TensorState)
    (hist : List (List Nat × List Nat)) (b shape last : List Nat)
    (hgood : TensorGood cs st hist)
    (hl : st.chunks.getLast? = some last)
    (hopen : last.length < cs) (hbig : cs - last.length < b.length) :
    TensorGood cs
      { st with
        chunks := st.chunks.dropLast ++
          [last ++ b.take (cs - last.length)] ++
          splitIntoChunks (b.drop (cs - last.length)) cs
        index_map := st.index_map ++
          [⟨st.chunks.length - 1,
            st.chunks.length - 1 +
              (splitIntoChunks (b.drop (cs - last.length)) cs).length,
            last.length,
            ((splitIntoChunks (b.drop (cs - last.length)) cs).getLastD []).length,
            shape⟩] }
      (hist ++ [(b, shape)]) := by
  have hcne : st.chunks ≠ [] := by
    intro hc
    rw [hc] at hl
    cases hl
  have hdec : st.chunks.dropLast ++ [last] = st.chunks :=
    List.dropLast_append_getLast? last hl
  have hDlen : st.chunks.dropLast.length = st.chunks.length - 1 := by simp
  have hpos : 0 < st.chunks.length := List.length_pos.mpr hcne
  have hNCne := splitIntoChunks_ne_nil (b.drop (cs - last.length)) cs
  have hKpos : 0 < (splitIntoChunks (b.drop (cs - last.length)) cs).length :=
    List.length_pos.mpr hNCne
  have hfilllen : (b.take (cs - last.length)).length = cs - last.length := by
    rw [List.length_take]
    omega
  have hAlen : (st.chunks.dropLast ++ [last ++ b.take (cs - last.length)]).length =
      st.chunks.length := by
    rw [List.length_append, hDlen, List.length_singleton]
    omega
  have hgetD : ((st.chunks.dropLast ++ [last ++ b.take (cs - last.length)]) ++
      splitIntoChunks (b.drop (cs - last.length)) cs).getD (st.chunks.length - 1) [] =
      last ++ b.take (cs - last.length) := by
    rw [getD_append_left _ _ _ [] (by omega),
      getD_append_right_my _ _ _ [] (by omega), hDlen, Nat.sub_self]
    rfl
  have hgetDlast : ((st.chunks.dropLast ++ [last ++ b.take (cs - last.length)]) ++
      splitIntoChunks (b.drop (cs - last.length)) cs).getD
        (st.chunks.length - 1 +
          (splitIntoChunks (b.drop (cs - last.length)) cs).length) [] =
      (splitIntoChunks (b.drop (cs - last.length)) cs).getLastD [] := by
    rw [getD_append_right_my _ _ _ [] (by omega), hAlen]
    have hi2 : st.chunks.length - 1 +
        (splitIntoChunks (b.drop (cs - last.length)) cs).length - st.chunks.length =
        (splitIntoChunks (b.drop (cs - last.length)) cs).length - 1 := by
      omega
    rw [hi2, getD_getLast _ _ hNCne]
  refine tensorGood_extend cs st _ hist _ b shape hgood rfl ?_ ?_ ?_ ?_ rfl
  · refine grow_trans (b := st.chunks.dropLast ++ [last ++ b.take (cs - last.length)])
      ?_ ?_
    · have hgrow := grow_extend_last st.chunks.dropLast last (b.take (cs - last.length))
      rw [hdec] at hgrow
      exact hgrow
    · exact grow_append _ _
  · show ∀ c ∈ ((st.chunks.dropLast ++ [last ++ b.take (cs - last.length)]) ++
      splitIntoChunks (b.drop (cs - last.length)) cs).dropLast, c.length = cs
    rw [List.dropLast_append_of_ne_nil _ hNCne]
    intro c hc
    rcases List.mem_append.mp hc with h1 | h2
    · rcases List.mem_append.mp h1 with h3 | h4
      · exact hgood.full_init c h3
      · rw [List.mem_singleton] at h4
        rw [h4, List.length_append, hfilllen]
        omega
    · exact splitIntoChunks_dropLast_full _ cs hcs c h2
  · show ∀ c ∈ (st.chunks.dropLast ++ [last ++ b.take (cs - last.length)]) ++
      splitIntoChunks (b.drop (cs - last.length)) cs, c.length ≤ cs
    intro c hc
    rcases List.mem_append.mp hc with h1 | h2
    · rcases List.mem_append.mp h1 with h3 | h4
      · exact hgood.all_le c (List.dropLast_sublist _ |>.subset h3)
      · rw [List.mem_singleton] at h4
        rw [h4, List.length_append, hfilllen]
        omega
    · exact splitIntoChunks_le _ cs hcs c h2
  · refine ⟨?_, ?_, ?_, ?_, ?_, ?_⟩
    · show st.chunks.length - 1 ≤ st.chunks.length - 1 +
        (splitIntoChunks (b.drop (cs - last.length)) cs).length
      omega
    · show st.chunks.length - 1 +
          (splitIntoChunks (b.drop (cs - last.length)) cs).length <
        ((st.chunks.dropLast ++ [last ++ b.take (cs - last.length)]) ++
          splitIntoChunks (b.drop (cs - last.length)) cs).length
      rw [List.length_append, hAlen]
      omega
    · show last.length ≤
        (((st.chunks.dropLast ++ [last ++ b.take (cs - last.length)]) ++
          splitIntoChunks (b.drop (cs - last.length)) cs).getD
            (st.chunks.length - 1) []).length
      rw [hgetD, List.length_append]
      omega
    · show ((splitIntoChunks (b.drop (cs - last.length)) cs).getLastD []).length ≤
        (((st.chunks.dropLast ++ [last ++ b.take (cs - last.length)]) ++
          splitIntoChunks (b.drop (cs - last.length)) cs).getD
            (st.chunks.length - 1 +
              (splitIntoChunks (b.drop (cs - last.length)) cs).length) []).length
      rw [hgetDlast]
    · intro i h1 h2
      have h1b : st.chunks.length - 1 ≤ i := h1
      have h2b : i < st.chunks.length - 1 +
          (splitIntoChunks (b.drop (cs - last.length)) cs).length := h2
      show (((st.chunks.dropLast ++ [last ++ b.take (cs - last.length)]) ++
        splitIntoChunks (b.drop (cs - last.length)) cs).getD i []).length = cs
      by_cases hedge : i = st.chunks.length - 1
      · rw [hedge, hgetD, List.length_append, hfilllen]
        omega
      · rw [getD_append_right_my _ _ _ [] (by omega), hAlen]
        have hlt : i - st.chunks.length <
            (splitIntoChunks (b.drop (cs - last.length)) cs).dropLast.length := by
          rw [List.length_dropLast]
          omega
        rw [← getD_dropLast _ _ [] (by rw [List.length_dropLast] at hlt; omega)]
        exact splitIntoChunks_dropLast_full _ cs hcs _ (getD_mem _ _ [] hlt)
    · show read_entry_bytes ((st.chunks.dropLast ++ [last ++ b.take (cs - last.length)]) ++
        splitIntoChunks (b.drop (cs - last.length)) cs)
        ⟨st.chunks.length - 1,
          st.chunks.length - 1 +
            (splitIntoChunks (b.drop (cs - last.length)) cs).length,
          last.length,
          ((splitIntoChunks (b.drop (cs - last.length)) cs).getLastD []).length,
          shape⟩ = b
      have hread := read_spill_segment
        (st.chunks.dropLast ++ [last ++ b.take (cs - last.length)])
        (by simp) (splitIntoChunks (b.drop (cs - last.length)) cs) hNCne
        last.length shape
      rw [hAlen, List.getLastD_concat] at hread
      rw [hread, List.drop_left, splitIntoChunks_flatten _ cs hcs,
        List.take_append_drop]

/-- One write_bytes call extends a good state by one good sample; the meta is
untouched (the caller commits the meta afterwards). -/
lemma write_bytes_good (cs : Nat) (hcs : 0 < cs) (st : TensorState)
    (hist : List (List Nat × List Nat)) (b shape : List Nat)
    (hgood : TensorGood cs st hist) :
    TensorGood cs (write_bytes b cs shape st) (hist ++ [(b, shape)]) ∧
    (write_bytes b cs shape st).meta = st.meta := by
  cases hl : st.chunks.getLast? with
  | none =>
    rw [write_bytes_eq_none b cs shape st hl]
    have hemp : st.chunks = [] := List.getLast?_eq_none_iff.mp hl
    refine ⟨?_, rfl⟩
    have hfb := fresh_branch_good cs hcs st hist b shape hgood
      (by rw [hemp]; intro c hc; cases hc)
    rw [hemp] at hfb
    simpa using hfb
  | some last =>
    by_cases hopen : last.length < cs
    · by_cases hfit : b.length ≤ cs - last.length
      · rw [write_bytes_eq_fits b cs shape st last hl ⟨hopen, hfit⟩]
        exact ⟨fits_branch_good cs hcs st hist b shape last hgood hl hopen hfit, rfl⟩
      · rw [write_bytes_eq_spill b cs shape st last hl (fun hc => hfit hc.2) hopen]
        exact ⟨spill_branch_good cs hcs st hist b shape last hgood hl hopen
          (by omega), rfl⟩
    · rw [write_bytes_eq_full b cs shape st last hl (fun hc => hopen hc.1) hopen]
      refine ⟨fresh_branch_good cs hcs st hist b shape hgood ?_, rfl⟩
      intro c hc
      have hdec : st.chunks.dropLast ++ [last] = st.chunks :=
        List.dropLast_append_getLast? last hl
      have hc2 := hc
      rw [← hdec] at hc2
      rcases List.mem_append.mp hc2 with h1 | h2
      · exact hgood.full_init c h1
      · rw [List.mem_singleton] at h2
        have hle := hgood.all_le c hc
        rw [h2] at hle ⊢
        omega

/-- Embeds a sequence of Tensor.append calls: each sample goes through
add_samples_to_tensor as a batch of one; the sequence stops at the first error. -/
def append_all (dtype : String) (sampleShape : List Nat) (bufs : List (List Nat))
    (st : TensorState) : TensorState × Option HubError :=
  match bufs with
  | [] => (st, none)
  | b :: rest =>
    match add_samples_to_tensor ⟨dtype, sampleShape, [b]⟩ st with
    | (st2, none) => append_all dtype sampleShape rest st2
    | (st2, some e) => (st2, some e)

lemma check_fixed_ok (meta : TensorMeta) (dtype : String) (S : List Nat) (n : Nat)
    (hd : meta.dtype = dtype) (hmin : meta.min_shape = S) (hmax : meta.max_shape = S) :
    check_array_and_tensor_are_compatible meta dtype (n :: S) = .ok () := by
  unfold check_array_and_tensor_are_compatible
  rw [hd, hmin, hmax]
  simp

lemma add_samples_one (dtype : String) (S : List Nat) (b : List Nat) (st : TensorState)
    (hd : st.meta.dtype = dtype) (hmin : st.meta.min_shape = S)
    (hmax : st.meta.max_shape = S) :
    add_samples_to_tensor ⟨dtype, S, [b]⟩ st =
      ({ write_bytes b st.meta.chunk_size S st with
          meta := { (write_bytes b st.meta.chunk_size S st).meta with
            length := (write_bytes b st.meta.chunk_size S st).meta.length + 1 } },
        none) := by
  unfold add_samples_to_tensor
  rw [show (BatchArr.mk dtype S [b]).samples.length = 1 from rfl]
  rw [check_fixed_ok st.meta dtype S 1 hd hmin hmax]
  rfl

lemma tensorGood_meta_change (cs : Nat) (st : TensorState) (m : TensorMeta)
    (hist : List (List Nat × List Nat)) (hgood : TensorGood cs st hist) :
    TensorGood cs { st with meta := m } hist :=
  ⟨hgood.full_init, hgood.all_le, hgood.len_eq, hgood.entries⟩

/-- Appending a sequence of same-shape samples to a good fixed-shape tensor always
succeeds and keeps the state good against the extended history. -/
lemma append_all_good (cs : Nat) (hcs : 0 < cs) (dtype : String) (S : List Nat) :
    ∀ (bufs : List (List Nat)) (st : TensorState) (hist : List (List Nat × List Nat)),
      st.meta.dtype = dtype → st.meta.min_shape = S → st.meta.max_shape = S →
      st.meta.chunk_size = cs → TensorGood cs st hist →
      (append_all dtype S bufs st).2 = none ∧
      TensorGood cs (append_all dtype S bufs st).1
        (hist ++ bufs.map (fun b => (b, S))) ∧
      (append_all dtype S bufs st).1.meta.dtype = dtype := by
  intro bufs
  induction bufs with
  | nil =>
    intro st hist hd hmin hmax hsz hgood
    exact ⟨rfl, by simpa using hgood, hd⟩
  | cons b rest ih =>
    intro st hist hd hmin hmax hsz hgood
    have hstep := add_samples_one dtype S b st hd hmin hmax
    have hwb := write_bytes_good cs hcs st hist b S hgood
    rw [hsz] at hstep
    have happ : append_all dtype S (b :: rest) st =
        append_all dtype S rest
          { write_bytes b cs S st with
            meta := { (write_bytes b cs S st).meta with
              length := (write_bytes b cs S st).meta.length + 1 } } := by
      show (match add_samples_to_tensor ⟨dtype, S, [b]⟩ st with
        | (st2, none) => append_all dtype S rest st2
        | (st2, some e) => (st2, some e)) = _
      rw [hstep]
    rw [happ]
    have hih := ih
      { write_bytes b cs S st with
        meta := { (write_bytes b cs S st).meta with
          length := (write_bytes b cs S st).meta.length + 1 } }
      (hist ++ [(b, S)])
      (by show (write_bytes b cs S st).meta.dtype = dtype; rw [hwb.2]; exact hd)
      (by show (write_bytes b cs S st).meta.min_shape = S; rw [hwb.2]; exact hmin)
      (by show (write_bytes b cs S st).meta.max_shape = S; rw [hwb.2]; exact hmax)
      (by show (write_bytes b cs S st).meta.chunk_size = cs; rw [hwb.2]; exact hsz)
      (tensorGood_meta_change cs _ _ _ hwb.1)
    refine ⟨hih.1, ?_, hih.2.2⟩
    have hres := hih.2.1
    rwa [List.append_assoc] at hres

lemma read_all_of_good (cs : Nat) (st : TensorState) (dtype : String) (S : List Nat)
    (bufs : List (List Nat)) (hd : st.meta.dtype = dtype)
    (hgood : TensorGood cs st (bufs.map (fun b => (b, S)))) :
    read_all_samples st = bufs.map (fun b => ⟨dtype, S, b⟩) := by
  unfold read_all_samples
  have hlen : st.index_map.length = bufs.length := by
    rw [hgood.len_eq, List.length_map]
  refine List.ext_getElem ?_ ?_
  · rw [List.length_map, List.length_map, hlen]
  · intro i h1 h2
    have hib : i < bufs.length := by rwa [List.length_map] at h2
    have him : i < st.index_map.length := by omega
    have hih : i < (bufs.map (fun b => (b, S))).length := by
      rwa [List.length_map]
    rw [List.getElem_map, List.getElem_map]
    obtain ⟨hg, hs⟩ := hgood.entries i (by rwa [List.length_map])
    have hgethist : (bufs.map (fun b => (b, S))).getD i ([], []) = (bufs[i], S) := by
      rw [List.getD_eq_getElem _ _ hih, List.getElem_map]
    have hgetim : st.index_map.getD i defaultEntry = st.index_map[i] :=
      List.getD_eq_getElem _ _ him
    rw [hgethist, hgetim] at hg hs
    show NDArr.mk st.meta.dtype (st.index_map[i].shape)
        (read_entry_bytes st.chunks (st.index_map[i])) = NDArr.mk dtype S (bufs[i])
    rw [hd, hs, hg.reads]

lemma tensor_numpy_of_read (st : TensorState) (dtype : String) (S : List Nat)
    (bufs : List (List Nat)) (hne : bufs ≠ [])
    (hread : read_all_samples st = bufs.map (fun b => ⟨dtype, S, b⟩)) :
    tensor_numpy st = some ⟨st.meta.dtype, bufs.length :: S, bufs.flatten⟩ := by
  unfold tensor_numpy
  rw [hread]
  cases bufs with
  | nil => cases hne rfl
  | cons b0 rest =>
    rw [List.map_cons]
    have hall : ((⟨dtype, S, b0⟩ : NDArr) :: rest.map (fun b => ⟨dtype, S, b⟩)).all
        (fun x => decide (x.shape = (⟨dtype, S, b0⟩ : NDArr).shape)) = true := by
      rw [List.all_eq_true]
      intro x hx
      rcases List.mem_cons.mp hx with rfl | hmem
      · simp
      · obtain ⟨b2, hb2, rfl⟩ := List.mem_map.mp hmem
        simp
    show (if ((⟨dtype, S, b0⟩ : NDArr) :: rest.map (fun b => ⟨dtype, S, b⟩)).all
        (fun x => decide (x.shape = (⟨dtype, S, b0⟩ : NDArr).shape)) = true then
        some (NDArr.mk st.meta.dtype
          (((⟨dtype, S, b0⟩ : NDArr) :: rest.map (fun b => ⟨dtype, S, b⟩)).length ::
            (⟨dtype, S, b0⟩ : NDArr).shape)
          ((((⟨dtype, S, b0⟩ : NDArr) :: rest.map (fun b => ⟨dtype, S, b⟩)).map
            NDArr.data).flatten))
      else none) = some ⟨st.meta.dtype, (b0 :: rest).length :: S, (b0 :: rest).flatten⟩
    rw [if_pos hall]
    refine congrArg _ ?_
    refine congrArg₂ _ ?_ ?_
    · rw [List.length_cons, List.length_map, List.length_cons]
    · show b0 ++ ((rest.map (fun b => ⟨dtype, S, b⟩)).map NDArr.data).flatten = _
      rw [List.map_map]
      have hmapid : (rest.map (NDArr.data ∘ fun b => (⟨dtype, S, b⟩ : NDArr))) = rest := by
        refine List.map_congr_left (fun x hx => rfl) |>.trans (List.map_id rest)
      rw [hmapid]
      rfl

/-- Claim C1: for every tensor created with fixed sample shape S and chunk size > 0,
appending any non-empty sequence of samples of shape S and the declared dtype succeeds,
reading back every sample gives exactly the appended buffers in order, and the full
read tensor.numpy() is the stacked array of shape (n,) + S with the concatenated
payloads — stack(a_0, ..., a_{n-1}) element for element. -/
theorem C1_append_then_numpy_is_stack (cs : Nat) (hcs : 0 < cs) (dtype : String)
    (S : List Nat) (bufs : List (List Nat)) (hne : bufs ≠ []) :
    (append_all dtype S bufs (create_tensor dtype S S cs)).2 = none ∧
    read_all_samples (append_all dtype S bufs (create_tensor dtype S S cs)).1 =
      bufs.map (fun b => ⟨dtype, S, b⟩) ∧
    tensor_numpy (append_all dtype S bufs (create_tensor dtype S S cs)).1 =
      some (stack_arrays dtype S bufs) := by
  have hgood0 : TensorGood cs (create_tensor dtype S S cs) [] := by
    refine ⟨?_, ?_, rfl, ?_⟩
    · intro c hc
      cases hc
    · intro c hc
      cases hc
    · intro j hj
      cases hj
  obtain ⟨hok, hgood, hdt⟩ := append_all_good cs hcs dtype S bufs
    (create_tensor dtype S S cs) [] rfl rfl rfl rfl hgood0
  rw [List.nil_append] at hgood
  have hread := read_all_of_good cs _ dtype S bufs hdt hgood
  have hnum := tensor_numpy_of_read _ dtype S bufs hne hread
  rw [hdt] at hnum
  exact ⟨hok, hread, hnum⟩

/-- Witness for C1: three 3-byte samples of shape (3,) into 4-byte chunks (the second
sample spans a chunk boundary). -/
theorem C1_append_then_numpy_is_stack_witness :
    (append_all "int64" [3] [[1, 2, 3], [4, 5, 6], [7, 8, 9]]
      (create_tensor "int64" [3] [3] 4)).2 = none ∧
    read_all_samples (append_all "int64" [3] [[1, 2, 3], [4, 5, 6], [7, 8, 9]]
        (create_tensor "int64" [3] [3] 4)).1 =
      [[1, 2, 3], [4, 5, 6], [7, 8, 9]].map (fun b => ⟨"int64", [3], b⟩) ∧
    tensor_numpy (append_all "int64" [3] [[1, 2, 3], [4, 5, 6], [7, 8, 9]]
        (create_tensor "int64" [3] [3] 4)).1 =
      some (stack_arrays "int64" [3] [[1, 2, 3], [4, 5, 6], [7, 8, 9]]) :=
  C1_append_then_numpy_is_stack 4 (by decide) "int64" [3]
    [[1, 2, 3], [4, 5, 6], [7, 8, 9]] (by decide)

/-!
Part 5: the index algebra (claim C4).  The Index class (hub.core.index) is not under
src/ — only Dataset.__getitem__ and Tensor.__getitem__, which delegate to it — so the
selector model follows the spec: an Index is an ordered list of per-axis selectors,
each an integer, a half-open (start, stop, step) slice, or an integer list (§3, §9).
Stored samples are row-major buffers; reading a sample out of chunk storage is the
identity on its payload by claim C1, so the tensor here holds its sample buffers.
-/

/-- One per-axis selector. -/
inductive Sel where
  | int (i : Nat)
  | slice (start stop step : Nat)
  | list (l : List Nat)
deriving DecidableEq, Repr

/-- The ordinals a selector picks on one axis of size d (slices clamp at the axis
size, as Python slices do). -/
def axisIndices (d : Nat) : Sel → List Nat
  | .int i => [i]
  | .slice a b s => List.range' a ((min b d - a + (s - 1)) / s) s
  | .list l => l

/-- Product of the dimensions: the element count of an array of that shape. -/
def prodList : List Nat → Nat
  | [] => 1
  | d :: ds => d * prodList ds

/-- Row-major flat offset of a coordinate tuple in an array of the given shape. -/
def flattenPos : List Nat → List Nat → Nat
  | d :: ds, i :: pos => i * prodList ds + flattenPos ds pos
  | _, _ => 0

/-- All coordinate tuples a multi-axis selection visits, in row-major order; axes
beyond the selector list are taken whole. -/
def npPositions : List Nat → List Sel → List (List Nat)
  | [], _ => [[]]
  | d :: ds, [] => (List.range d).flatMap (fun i => (npPositions ds []).map (i :: ·))
  | d :: ds, sel :: rest =>
    (axisIndices d sel).flatMap (fun i => (npPositions ds rest).map (i :: ·))

/-- The result shape of a multi-axis selection: integer-selected axes are dropped,
other selected axes contribute their ordinal count, trailing axes stay. -/
def npShape : List Nat → List Sel → List Nat
  | shape, [] => shape
  | [], _ :: _ => []
  | _ :: ds, .int _ :: rest => npShape ds rest
  | d :: ds, sel :: rest => (axisIndices d sel).length :: npShape ds rest

/-- Reference semantics of direct numpy basic indexing on a row-major buffer f of the
given shape: the flat result values (one strided read per visited coordinate tuple)
together with the result shape. -/
def npIndexRef (shape : List Nat) (f : Nat → Int) (sels : List Sel) :
    List Int × List Nat :=
  ((npPositions shape sels).map (fun pos => f (flattenPos shape pos)),
    npShape shape sels)

/-- Modelled from the spec: composition of one absorbed subscript into one non-integer
axis selector (a slice of a slice composes affinely, lists compose by lookup). -/
def composeSel : Sel → Sel → Sel
  | .slice a _ s, .int i => .int (a + i * s)
  | .slice a b s, .slice c d e => .slice (a + c * s) (min b (a + d * s)) (s * e)
  | .slice a _ s, .list l => .list (l.map (fun i => a + i * s))
  | .list l, .int i => .int (l.getD i 0)
  | .list l, .slice c d e =>
    .list ((axisIndices l.length (.slice c d e)).map (fun j => l.getD j 0))
  | .list l, .list m => .list (m.map (fun j => l.getD j 0))
  | .int i, _ => .int i

/-- Modelled from the spec: Index.__getitem__ composes selectors axis by axis — the
first non-integer axes of self absorb the subscript, integer-resolved axes are
skipped, and a trivial self (the empty list) takes the subscript as is (§4.4). -/
def composeIndex : List Sel → List Sel → List Sel
  | [], sub => sub
  | .int i :: rest, sub => .int i :: composeIndex rest sub
  | s :: _rest, [] => s :: _rest
  | s :: rest, t :: subRest => composeSel s t :: composeIndex rest subRest

/-- A tensor read view: the stored per-sample row-major buffers, the sample shape, and
the ambient Index restricting the view. -/
structure TensorView where
  samples : List (Nat → Int)
  sample_shape : List Nat
  index : List Sel

/-- Embeds Tensor.__getitem__: a new view over the same storage whose Index is the
composition self.index[item]; no data is touched. -/
def TensorView.getitem (t : TensorView) (sels : List Sel) : TensorView :=
  { t with index := composeIndex t.index sels }

/-- Modelled from the spec: Tensor.numpy() resolves axis 0 of the Index to sample
ordinals, loads each such sample (the chunk-level load is the identity on the payload,
claim C1), applies the remaining axes to the loaded sample with numpy semantics, and
stacks the per-sample results; an integer axis-0 selector drops the leading axis as
read_samples_from_tensor does for an int index item. -/
def TensorView.numpy (t : TensorView) : List Int × List Nat :=
  match t.index with
  | [] =>
    ((List.range t.samples.length).flatMap
      (fun i => (npIndexRef t.sample_shape (t.samples.getD i (fun _ => 0)) []).1),
      t.samples.length :: t.sample_shape)
  | sel0 :: rest =>
    ((axisIndices t.samples.length sel0).flatMap
      (fun i => (npIndexRef t.sample_shape (t.samples.getD i (fun _ => 0)) rest).1),
      match sel0 with
      | .int _ => npShape t.sample_shape rest
      | _ =>
        (axisIndices t.samples.length sel0).length :: npShape t.sample_shape rest)

/-- In-range condition of one selector on one axis. -/
def selWF (d : Nat) : Sel → Prop
  | .int i => i < d
  | .slice _ _ s => 0 < s
  | .list l => ∀ x ∈ l, x < d

/-- In-range condition of a selector list over a shape: at most one selector per axis,
each in range. -/
def SelsWF : List Nat → List Sel → Prop
  | _, [] => True
  | [], _ :: _ => False
  | d :: ds, sel :: rest => selWF d sel ∧ SelsWF ds rest

instance (d : Nat) (s : Sel) : Decidable (selWF d s) := by
  unfold selWF
  cases s <;> infer_instance

instance (shape : List Nat) (sels : List Sel) : Decidable (SelsWF shape sels) := by
  induction sels generalizing shape with
  | nil =>
    have h : SelsWF shape [] = True := by cases shape <;> rfl
    rw [h]
    infer_instance
  | cons s rest ih =>
    cases shape with
    | nil =>
      have h : SelsWF [] (s :: rest) = False := rfl
      rw [h]
      infer_instance
    | cons d ds =>
      have h : SelsWF (d :: ds) (s :: rest) = (selWF d s ∧ SelsWF ds rest) := rfl
      rw [h]
      have := ih ds
      infer_instance

/-- The row-major buffer of the stacked whole array: flat offset k addresses element
k % p of sample k / p, where p is the per-sample element count. -/
def stackedFun (samples : List (Nat → Int)) (p : Nat) : Nat → Int :=
  fun k => samples.getD (k / p) (fun _ => 0) (k % p)

lemma mul_lt_of_lt_ceil (k x s : Nat) (hs : 0 < s) (hk : k < (x + (s - 1)) / s) :
    s * k < x := by
  by_cases hx : x = 0
  · subst hx
    rw [Nat.zero_add, Nat.div_eq_of_lt (by omega)] at hk
    omega
  · have h1 : (k + 1) * s ≤ ((x + (s - 1)) / s) * s :=
      Nat.mul_le_mul_right s (by omega)
    have h2 : ((x + (s - 1)) / s) * s ≤ x + (s - 1) := Nat.div_mul_le_self _ s
    have h3 : (k + 1) * s = k * s + s := by ring
    have h4 : s * k = k * s := Nat.mul_comm s k
    omega

lemma axisIndices_lt (d : Nat) (sel : Sel) (hwf : selWF d sel) :
    ∀ x ∈ axisIndices d sel, x < d := by
  cases sel with
  | int i =>
    intro x hx
    rw [axisIndices, List.mem_singleton] at hx
    exact hx ▸ hwf
  | slice a b s =>
    intro x hx
    rw [axisIndices, List.mem_range'] at hx
    obtain ⟨k, hk, rfl⟩ := hx
    have := mul_lt_of_lt_ceil k (min b d - a) s hwf hk
    omega
  | list l =>
    intro x hx
    exact hwf x hx

lemma selsWF_nil (ds : List Nat) : SelsWF ds [] := by
  cases ds with
  | nil => exact trivial
  | cons d ds2 => exact trivial

lemma npPositions_flatten_lt :
    ∀ (ds : List Nat) (sels : List Sel), SelsWF ds sels →
      ∀ pos ∈ npPositions ds sels, flattenPos ds pos < prodList ds := by
  intro ds
  induction ds with
  | nil =>
    intro sels hwf pos hpos
    cases sels with
    | nil =>
      rw [show npPositions [] [] = [[]] from rfl, List.mem_singleton] at hpos
      subst hpos
      show (0 : Nat) < 1
      omega
    | cons s rest => exact hwf.elim
  | cons d ds2 ih =>
    intro sels hwf pos hpos
    cases sels with
    | nil =>
      rw [show npPositions (d :: ds2) [] =
        (List.range d).flatMap (fun i => (npPositions ds2 []).map (i :: ·)) from rfl,
        List.mem_flatMap] at hpos
      obtain ⟨i, hi, hpos2⟩ := hpos
      rw [List.mem_map] at hpos2
      obtain ⟨pos2, hpos2mem, rfl⟩ := hpos2
      rw [List.mem_range] at hi
      have hrec := ih [] (selsWF_nil ds2) pos2 hpos2mem
      show i * prodList ds2 + flattenPos ds2 pos2 < d * prodList ds2
      have hmul : (i + 1) * prodList ds2 ≤ d * prodList ds2 :=
        Nat.mul_le_mul_right _ (by omega)
      have hexp : (i + 1) * prodList ds2 = i * prodList ds2 + prodList ds2 := by ring
      omega
    | cons sel rest =>
      rw [show npPositions (d :: ds2) (sel :: rest) =
        (axisIndices d sel).flatMap (fun i => (npPositions ds2 rest).map (i :: ·))
        from rfl, List.mem_flatMap] at hpos
      obtain ⟨i, hi, hpos2⟩ := hpos
      rw [List.mem_map] at hpos2
      obtain ⟨pos2, hpos2mem, rfl⟩ := hpos2
      have hilt := axisIndices_lt d sel hwf.1 i hi
      have hrec := ih rest hwf.2 pos2 hpos2mem
      show i * prodList ds2 + flattenPos ds2 pos2 < d * prodList ds2
      have hmul : (i + 1) * prodList ds2 ≤ d * prodList ds2 :=
        Nat.mul_le_mul_right _ (by omega)
      have hexp : (i + 1) * prodList ds2 = i * prodList ds2 + prodList ds2 := by ring
      omega

lemma stackedFun_split (samples : List (Nat → Int)) (p i r : Nat) (hr : r < p) :
    stackedFun samples p (i * p + r) = samples.getD i (fun _ => 0) r := by
  have hp : 0 < p := by omega
  unfold stackedFun
  have hdiv : (i * p + r) / p = i := by
    rw [Nat.add_comm, Nat.add_mul_div_right _ _ hp, Nat.div_eq_of_lt hr]
    omega
  have hmod : (i * p + r) % p = r := by
    rw [Nat.add_comm, Nat.add_mul_mod_self_right]
    exact Nat.mod_eq_of_lt hr
  rw [hdiv, hmod]

/-- The strided whole-array gather over axis-0 ordinals decomposes into per-sample
gathers: reading coordinate (i, pos) of the stacked buffer is reading pos of sample i. -/
lemma gather_decomp (n : Nat) (ds : List Nat) (samples : List (Nat → Int))
    (rest : List Sel) (hwf : SelsWF ds rest) (idxs : List Nat) :
    ((idxs.flatMap (fun i => (npPositions ds rest).map (i :: ·))).map
      (fun pos => stackedFun samples (prodList ds) (flattenPos (n :: ds) pos))) =
    idxs.flatMap (fun i => (npIndexRef ds (samples.getD i (fun _ => 0)) rest).1) := by
  induction idxs with
  | nil => rfl
  | cons i is ih =>
    rw [List.flatMap_cons, List.flatMap_cons, List.map_append, ih, List.map_map]
    refine congrArg₂ _ ?_ rfl
    show (npPositions ds rest).map
        ((fun pos => stackedFun samples (prodList ds) (flattenPos (n :: ds) pos)) ∘
          (i :: ·)) =
      (npPositions ds rest).map
        (fun pos => samples.getD i (fun _ => 0) (flattenPos ds pos))
    refine List.map_congr_left fun pos hpos => ?_
    simp only [Function.comp_apply]
    show stackedFun samples (prodList ds) (i * prodList ds + flattenPos ds pos) = _
    exact stackedFun_split samples (prodList ds) i (flattenPos ds pos)
      (npPositions_flatten_lt ds rest hwf pos hpos)

/-- Claim C4: for every stored tensor (samples of a common shape) and every in-range
multi-axis selection of integers, slices and integer lists, reading through the
Dataset/Tensor index algebra — compose the subscript onto the trivial ambient Index,
resolve axis 0 to sample ordinals, gather within each sample, stack — returns exactly
the values and shape that direct numpy indexing of the stacked array returns. -/
theorem C4_index_algebra_matches_numpy (ds : List Nat) (samples : List (Nat → Int))
    (sels : List Sel) (hwf : SelsWF (samples.length :: ds) sels) :
    (TensorView.getitem ⟨samples, ds, []⟩ sels).numpy =
      npIndexRef (samples.length :: ds) (stackedFun samples (prodList ds)) sels := by
  have hgetitem : TensorView.getitem ⟨samples, ds, []⟩ sels = ⟨samples, ds, sels⟩ := rfl
  rw [hgetitem]
  cases sels with
  | nil =>
    show ((List.range samples.length).flatMap
        (fun i => (npIndexRef ds (samples.getD i (fun _ => 0)) []).1),
        samples.length :: ds) = _
    unfold npIndexRef
    refine congrArg₂ Prod.mk ?_ rfl
    rw [show npPositions (samples.length :: ds) [] =
      (List.range samples.length).flatMap (fun i => (npPositions ds []).map (i :: ·))
      from rfl]
    exact (gather_decomp samples.length ds samples [] (selsWF_nil ds)
      (List.range samples.length)).symm
  | cons sel0 rest =>
    have hwf2 : SelsWF ds rest := hwf.2
    show ((axisIndices samples.length sel0).flatMap
        (fun i => (npIndexRef ds (samples.getD i (fun _ => 0)) rest).1),
        match sel0 with
        | .int _ => npShape ds rest
        | _ => (axisIndices samples.length sel0).length :: npShape ds rest) = _
    unfold npIndexRef
    refine congrArg₂ Prod.mk ?_ ?_
    · rw [show npPositions (samples.length :: ds) (sel0 :: rest) =
        (axisIndices samples.length sel0).flatMap
          (fun i => (npPositions ds rest).map (i :: ·)) from rfl]
      exact (gather_decomp samples.length ds samples rest hwf2 _).symm
    · cases sel0 <;> rfl

/-- Witness for C4: the cited selection data[30:40, :, 8:11, 4] on the stored arange
tensor of shape (64, 16, 16, 16). -/
theorem C4_index_algebra_matches_numpy_witness :
    (TensorView.getitem
        ⟨(List.range 64).map (fun i => (fun j => ((i * 4096 + j : Nat) : Int))),
          [16, 16, 16], []⟩
        [.slice 30 40 1, .slice 0 16 1, .slice 8 11 1, .int 4]).numpy =
      npIndexRef
        (((List.range 64).map
          (fun i => (fun j => ((i * 4096 + j : Nat) : Int)))).length :: [16, 16, 16])
        (stackedFun
          ((List.range 64).map (fun i => (fun j => ((i * 4096 + j : Nat) : Int))))
          (prodList [16, 16, 16]))
        [.slice 30 40 1, .slice 0 16 1, .slice 8 11 1, .int 4] :=
  C4_index_algebra_matches_numpy [16, 16, 16]
    ((List.range 64).map (fun i => (fun j => ((i * 4096 + j : Nat) : Int))))
    [.slice 30 40 1, .slice 0 16 1, .slice 8 11 1, .int 4] (by decide)
